import Mathlib

/-!
# Verification of the libdocs-mcp library-resolution cache

Shallow embedding of the two in-memory cache implementations of the
repository:

* `Store` embeds `src/mastra/cache/library-cache-store.ts`
  (`LibraryCacheStore`): a TTL + capacity bounded store keyed by the
  normalized search term, with a secondary alias index.
* `Repo` embeds `src/mastra/cache/library-cache-repository.ts`
  (`BaseCacheRepository` and its Context7/DeepWiki subclasses): a
  capacity bounded store keyed by the first (canonical) name, with
  identity reconciliation and zod schema validation
  (`src/mastra/cache/schema.ts`, shipped as `utils/date-context.ts`).

JavaScript `Map` objects preserve insertion order; `Map.set` on an
existing key keeps the key at its old position, and a fresh key is
appended at the end.  We embed a `Map` as an association list
`List (String × α)` with exactly those semantics.  Timestamps
(`Date.now()` milliseconds) are embedded as `Nat`: the only arithmetic
performed on them is `now - updatedAt > TTL`, and for `now <
updatedAt` both the JS value (negative) and the truncated `Nat`
subtraction (zero) fail the `> TTL` test, so the embedding agrees with
the source on all inputs.  `Array.prototype.sort` is stable, so a sort
by a numeric key equals the unique sort by the lexicographic order on
(key, original index); we embed it by tagging elements with their
index and running `List.insertionSort` on that lexicographic (total,
transitive, antisymmetric) order.
-/

set_option maxHeartbeats 1000000

namespace LibdocsCache

/-- Drop the whitespace characters surrounding a character list:
JS `String.prototype.trim`. -/
def trimChars (l : List Char) : List Char :=
  ((l.dropWhile fun c => c.isWhitespace).reverse.dropWhile
    fun c => c.isWhitespace).reverse

/-- JS `term.trim().toLowerCase()` (`normalizeKey` in
library-cache-store.ts, and the inline normalization of
`BaseCacheRepository.getByName`).  Implemented over the character
list so that it evaluates by kernel reduction; ASCII case folding
(the repository only ever feeds it package / repository names). -/
def normalizeKey (term : String) : String :=
  ⟨(trimChars term.data).map Char.toLower⟩

/-- Union of the `sourceType` enumerations of the two variants and the
two schema generations (`official | mirror | website` in the store,
`official | llmstxt | website` / `official | mirror` in the zod
schemas).  TypeScript enforces membership at the type level, so the
embedding carries one inductive for all of them. -/
inductive SourceType
  | official
  | mirror
  | website
  | llmstxt
deriving DecidableEq, Repr

/-- The variant-specific fields of a cache entry: the `kind`
discriminant together with `libraryId`/`trustScore`/`snippetCount`
(context7) or `repository` (deepwiki).  `trustScore` is a JS number
constrained to [0,10]; embedded as `ℚ`.  `snippetCount` is a JS number
constrained to a non-negative integer; embedded as `ℤ`. -/
inductive Payload
  | context7 (libraryId : String) (trustScore : Option ℚ) (snippetCount : Option ℤ)
  | deepwiki (repository : String)
deriving DecidableEq, Repr

/-- `CacheEntryInput` of library-cache-store.ts: a cache entry without
the bookkeeping fields `lastAccessedAt` and `updatedAt`. -/
structure CacheEntryInput where
  searchTerm : String
  aliases : Option (List String)
  sourceType : SourceType
  resolvedAt : String
  payload : Payload
deriving DecidableEq, Repr

/-- `CacheEntry` of library-cache-store.ts: the stored record,
extending the input with the two bookkeeping timestamps. -/
structure CacheEntry extends CacheEntryInput where
  lastAccessedAt : Nat
  updatedAt : Nat
deriving DecidableEq, Repr

/-! ## JS `Map` as an insertion-ordered association list -/

/-- `Map.prototype.get`: the value of the (unique) binding for `k`. -/
def mapGet : List (String × α) → String → Option α
  | [], _ => none
  | p :: rest, k => if p.1 = k then some p.2 else mapGet rest k

/-- `Map.prototype.has`. -/
def mapHas : List (String × α) → String → Bool
  | [], _ => false
  | p :: rest, k => p.1 = k || mapHas rest k

/-- `Map.prototype.set`: replace in place when the key is present,
append at the end otherwise. -/
def mapSet : List (String × α) → String → α → List (String × α)
  | [], k, v => [(k, v)]
  | p :: rest, k, v => if p.1 = k then (k, v) :: rest else p :: mapSet rest k v

/-- `Map.prototype.delete`: drop the binding for `k` (a JS map holds
at most one). -/
def mapDelete : List (String × α) → String → List (String × α)
  | [], _ => []
  | p :: rest, k => if p.1 = k then mapDelete rest k else p :: mapDelete rest k

namespace Store

/-- `CACHE_MAX_ENTRIES` in library-cache-store.ts. -/
def CACHE_MAX_ENTRIES : Nat := 50

/-- `CACHE_TTL_MS` in library-cache-store.ts (12 hours). -/
def CACHE_TTL_MS : Nat := 1000 * 60 * 60 * 12

/-- The private fields `entries` and `aliasIndex` of
`LibraryCacheStore`. -/
structure StoreState where
  entries : List (String × CacheEntry)
  aliasIndex : List (String × String)
deriving DecidableEq, Repr

/-- The store a fresh `LibraryCacheStore` starts from. -/
def emptyStore : StoreState := ⟨[], []⟩

/-- The record built by `upsert`: `{ ...entry, lastAccessedAt: now,
updatedAt: now }`. -/
def mkEntry (input : CacheEntryInput) (now : Nat) : CacheEntry :=
  { input with lastAccessedAt := now, updatedAt := now }

/-- `LibraryCacheStore.registerAliasIndex`: for each alias of the
entry, point the normalized alias at the canonical key. -/
def registerAliasIndex (e : CacheEntry) (key : String)
    (idx : List (String × String)) : List (String × String) :=
  (e.aliases.getD []).foldl (fun acc a => mapSet acc (normalizeKey a) key) idx

/-- The `forEach` body of `LibraryCacheStore.removeAliasIndex`: drop
the alias from the index, but only when it still points at the entry
being removed (`key`). -/
def removeAliasStep (key : String) (acc : List (String × String))
    (a : String) : List (String × String) :=
  match mapGet acc (normalizeKey a) with
  | some mapped =>
      if mapped == key then mapDelete acc (normalizeKey a) else acc
  | none => acc

/-- `LibraryCacheStore.removeAliasIndex`. -/
def removeAliasIndex (e : CacheEntry) (key : String)
    (idx : List (String × String)) : List (String × String) :=
  (e.aliases.getD []).foldl (removeAliasStep key) idx

/-- `LibraryCacheStore.removeEntry`. -/
def removeEntry (key : String) (s : StoreState) : StoreState :=
  match mapGet s.entries key with
  | none => s
  | some e =>
      { entries := mapDelete s.entries key
        aliasIndex := removeAliasIndex e key s.aliasIndex }

/-- The TTL test of `pruneExpired`: `now - entry.updatedAt >
CACHE_TTL_MS`. -/
def expiredAt (now : Nat) (e : CacheEntry) : Bool :=
  CACHE_TTL_MS < now - e.updatedAt

/-- The loop body of `pruneExpired`: iterate the entries in insertion
order and remove each expired one.  The JS loop iterates the live map
while deleting only the key it is visiting, so iterating the initial
entry list is the same computation. -/
def pruneLoop (now : Nat) : List (String × CacheEntry) → StoreState → StoreState
  | [], s => s
  | (k, e) :: rest, s =>
      pruneLoop now rest (if expiredAt now e then removeEntry k s else s)

/-- `LibraryCacheStore.pruneExpired`. -/
def pruneExpired (now : Nat) (s : StoreState) : StoreState :=
  pruneLoop now s.entries s

/-- Lexicographic order on (lastAccessedAt, original position): the
order computed by the stable JS sort
`sort((a, b) => a[1].lastAccessedAt - b[1].lastAccessedAt)`. -/
def lastLex (a b : Nat × (String × CacheEntry)) : Prop :=
  a.2.2.lastAccessedAt < b.2.2.lastAccessedAt ∨
    (a.2.2.lastAccessedAt = b.2.2.lastAccessedAt ∧ a.1 ≤ b.1)

instance : DecidableRel lastLex := fun a b => by
  unfold lastLex; exact inferInstance

instance : IsTotal (Nat × (String × CacheEntry)) lastLex where
  total a b := by unfold lastLex; omega

instance : IsTrans (Nat × (String × CacheEntry)) lastLex where
  trans a b c hab hbc := by unfold lastLex at *; omega

/-- The stable ascending sort of the entry array by `lastAccessedAt`
performed by `enforceCapacity`. -/
def sortByLastAccessed (l : List (String × CacheEntry)) :
    List (String × CacheEntry) :=
  ((l.enum).insertionSort lastLex).map (fun p => p.2)

/-- The `while` loop of `enforceCapacity`: pop the sorted array and
remove entries while the store is over capacity. -/
def evictLoop : List (String × CacheEntry) → StoreState → StoreState
  | [], s => s
  | (k, _) :: rest, s =>
      if s.entries.length ≤ CACHE_MAX_ENTRIES then s
      else evictLoop rest (removeEntry k s)

/-- `LibraryCacheStore.enforceCapacity`. -/
def enforceCapacity (s : StoreState) : StoreState :=
  if s.entries.length ≤ CACHE_MAX_ENTRIES then s
  else evictLoop (sortByLastAccessed s.entries) s

/-- The state of `LibraryCacheStore.upsert` right before its final
`enforceCapacity()` call: prune, drop the replaced entry's aliases,
set the new record, register its aliases. -/
def upsertPlaced (now : Nat) (input : CacheEntryInput) (s : StoreState) :
    StoreState :=
  let s1 := pruneExpired now s
  let key := normalizeKey input.searchTerm
  let next := mkEntry input now
  let s2 :=
    match mapGet s1.entries key with
    | some existing =>
        { s1 with aliasIndex := removeAliasIndex existing key s1.aliasIndex }
    | none => s1
  { entries := mapSet s2.entries key next
    aliasIndex := registerAliasIndex next key s2.aliasIndex }

/-- `LibraryCacheStore.upsert` (the body run under the mutex; the
logger call has no effect on state). Returns the record handed back to
the caller together with the new store state. -/
def upsert (now : Nat) (input : CacheEntryInput) (s : StoreState) :
    CacheEntry × StoreState :=
  (mkEntry input now, enforceCapacity (upsertPlaced now input s))

/-- `LibraryCacheStore.resolveKey`: direct canonical-key match first,
alias-index fallback second. -/
def resolveKey (t : String) (s : StoreState) : Option String :=
  let normalized := normalizeKey t
  if mapHas s.entries normalized then some normalized
  else mapGet s.aliasIndex normalized

/-- `LibraryCacheStore.get` (the body run under the mutex): prune,
resolve, refresh `lastAccessedAt`, return a copy. -/
def get (now : Nat) (t : String) (s : StoreState) :
    Option CacheEntry × StoreState :=
  let s1 := pruneExpired now s
  match resolveKey t s1 with
  | none => (none, s1)
  | some key =>
      match mapGet s1.entries key with
      | none => (none, s1)
      | some e =>
          let refreshed := { e with lastAccessedAt := now }
          (some refreshed, { s1 with entries := mapSet s1.entries key refreshed })

/-- The `kind` argument of `getSnapshot`. -/
inductive KindFilter
  | context7
  | deepwiki
  | all
deriving DecidableEq, Repr

/-- The filter predicate of `getSnapshot`. -/
def entryKindMatches (kf : KindFilter) (e : CacheEntry) : Bool :=
  match kf, e.payload with
  | .all, _ => true
  | .context7, .context7 .. => true
  | .deepwiki, .deepwiki .. => true
  | _, _ => false

/-- Lexicographic order on (updatedAt descending, original position):
the order computed by the stable JS sort
`sort((a, b) => b.updatedAt - a.updatedAt)`. -/
def updatedLex (a b : Nat × CacheEntry) : Prop :=
  b.2.updatedAt < a.2.updatedAt ∨ (a.2.updatedAt = b.2.updatedAt ∧ a.1 ≤ b.1)

instance : DecidableRel updatedLex := fun a b => by
  unfold updatedLex; exact inferInstance

instance : IsTotal (Nat × CacheEntry) updatedLex where
  total a b := by unfold updatedLex; omega

instance : IsTrans (Nat × CacheEntry) updatedLex where
  trans a b c hab hbc := by unfold updatedLex at *; omega

/-- The stable descending sort by `updatedAt` performed by
`getSnapshot`. -/
def sortByUpdatedDesc (l : List CacheEntry) : List CacheEntry :=
  ((l.enum).insertionSort updatedLex).map (fun p => p.2)

/-- One element of `CacheSnapshot.libraries`: a context7 entry with
`kind`, `lastAccessedAt` and `updatedAt` stripped. -/
structure LibrarySnapshotRecord where
  searchTerm : String
  aliases : Option (List String)
  sourceType : SourceType
  resolvedAt : String
  libraryId : String
  trustScore : Option ℚ
  snippetCount : Option ℤ
deriving DecidableEq, Repr

/-- One element of `CacheSnapshot.repositories`: a deepwiki entry with
`kind`, `lastAccessedAt` and `updatedAt` stripped. -/
structure RepositorySnapshotRecord where
  searchTerm : String
  aliases : Option (List String)
  sourceType : SourceType
  resolvedAt : String
  repository : String
deriving DecidableEq, Repr

/-- `CacheSnapshot` of library-cache-store.ts. -/
structure CacheSnapshot where
  libraries : List LibrarySnapshotRecord
  repositories : List RepositorySnapshotRecord
deriving DecidableEq, Repr

/-- The destructuring `const { kind, lastAccessedAt, updatedAt, ...rest }`
on a context7 entry. -/
def projectLibrary (e : CacheEntry) : Option LibrarySnapshotRecord :=
  match e.payload with
  | .context7 lid ts sc =>
      some
        { searchTerm := e.searchTerm
          aliases := e.aliases
          sourceType := e.sourceType
          resolvedAt := e.resolvedAt
          libraryId := lid
          trustScore := ts
          snippetCount := sc }
  | .deepwiki _ => none

/-- The destructuring `const { kind, lastAccessedAt, updatedAt, ...rest }`
on a deepwiki entry. -/
def projectRepository (e : CacheEntry) : Option RepositorySnapshotRecord :=
  match e.payload with
  | .deepwiki repo =>
      some
        { searchTerm := e.searchTerm
          aliases := e.aliases
          sourceType := e.sourceType
          resolvedAt := e.resolvedAt
          repository := repo }
  | .context7 .. => none

/-- The `slice` computed inside `getSnapshot`: pruned entries,
filtered by kind, stably sorted by `updatedAt` descending, truncated
to `limit`. -/
def snapshotSlice (now : Nat) (limit : Nat) (kf : KindFilter)
    (s : StoreState) : List CacheEntry :=
  let s1 := pruneExpired now s
  (sortByUpdatedDesc ((s1.entries.map (fun p => p.2)).filter
    (entryKindMatches kf))).take limit

/-- `LibraryCacheStore.getSnapshot` (the body run under the mutex):
the slice split into the two projected arrays, in slice order. -/
def getSnapshot (now : Nat) (limit : Nat) (kf : KindFilter) (s : StoreState) :
    CacheSnapshot × StoreState :=
  let s1 := pruneExpired now s
  let slice := snapshotSlice now limit kf s
  ({ libraries := slice.filterMap projectLibrary
     repositories := slice.filterMap projectRepository }, s1)

end Store

/-! ## Lemmas about the `Map` embedding -/

/-- Distinct keys: the well-formedness invariant a JS `Map` guarantees
by construction. -/
def NodupKeys (m : List (String × α)) : Prop :=
  (m.map Prod.fst).Nodup

instance (m : List (String × α)) : Decidable (NodupKeys m) := by
  unfold NodupKeys
  exact inferInstance

theorem nodupKeys_cons {p : String × α} {rest : List (String × α)}
    (h : NodupKeys (p :: rest)) :
    (∀ v, (p.1, v) ∉ rest) ∧ NodupKeys rest := by
  unfold NodupKeys at h
  simp only [List.map_cons, List.nodup_cons] at h
  refine ⟨fun v hv => h.1 ?_, h.2⟩
  exact List.mem_map.mpr ⟨(p.1, v), hv, rfl⟩

theorem mapGet_eq_none_iff {m : List (String × α)} {k : String} :
    mapGet m k = none ↔ ∀ v, (k, v) ∉ m := by
  induction m with
  | nil => simp [mapGet]
  | cons p rest ih =>
      obtain ⟨q, w⟩ := p
      by_cases hk : q = k
      · subst hk
        simp only [mapGet, if_pos rfl]
        constructor
        · intro h; cases h
        · intro h; exact absurd (List.mem_cons_self _ _) (h w)
      · simp [mapGet, hk, ih, Ne.symm hk]

theorem mem_of_mapGet_eq_some {m : List (String × α)} {k : String} {v : α}
    (h : mapGet m k = some v) : (k, v) ∈ m := by
  induction m with
  | nil => simp [mapGet] at h
  | cons p rest ih =>
      obtain ⟨q, w⟩ := p
      by_cases hk : q = k
      · subst hk
        have hw : w = v := by simpa [mapGet] using h
        rw [← hw]
        exact List.mem_cons_self _ _
      · simp only [mapGet, if_neg hk] at h
        exact List.mem_cons_of_mem _ (ih h)

theorem mapGet_eq_some_of_mem {m : List (String × α)} {k : String} {v : α}
    (hnd : NodupKeys m) (h : (k, v) ∈ m) : mapGet m k = some v := by
  induction m with
  | nil => simp at h
  | cons p rest ih =>
      obtain ⟨q, w⟩ := p
      rcases List.mem_cons.mp h with h1 | h1
      · obtain ⟨hk, hv⟩ := Prod.mk.injEq .. ▸ h1.symm
        subst hk
        simp [mapGet, hv]
      · have hk : q ≠ k := by
          intro he
          subst he
          exact (nodupKeys_cons hnd).1 v h1
        simp only [mapGet, if_neg hk]
        exact ih (nodupKeys_cons hnd).2 h1

theorem mapHas_eq_isSome (m : List (String × α)) (k : String) :
    mapHas m k = (mapGet m k).isSome := by
  induction m with
  | nil => simp [mapHas, mapGet]
  | cons p rest ih =>
      by_cases hk : p.1 = k
      · simp [mapHas, mapGet, hk]
      · simp [mapHas, mapGet, hk, ih]

theorem mapHas_iff_exists {m : List (String × α)} {k : String} :
    mapHas m k = true ↔ ∃ v, (k, v) ∈ m := by
  rw [mapHas_eq_isSome, Option.isSome_iff_exists]
  constructor
  · rintro ⟨v, hv⟩; exact ⟨v, mem_of_mapGet_eq_some hv⟩
  · rintro ⟨v, hv⟩
    rcases h : mapGet m k with _ | w
    · exact absurd hv ((mapGet_eq_none_iff.mp h) v)
    · exact ⟨w, rfl⟩

theorem mapGet_set_self (m : List (String × α)) (k : String) (v : α) :
    mapGet (mapSet m k v) k = some v := by
  induction m with
  | nil => simp [mapSet, mapGet]
  | cons p rest ih =>
      by_cases hk : p.1 = k
      · simp [mapSet, mapGet, hk]
      · simp [mapSet, mapGet, hk, ih]

theorem mapGet_set_ne (m : List (String × α)) {k q : String} (v : α)
    (h : q ≠ k) : mapGet (mapSet m k v) q = mapGet m q := by
  induction m with
  | nil => simp [mapSet, mapGet, Ne.symm h]
  | cons p rest ih =>
      by_cases hk : p.1 = k
      · have hpq : p.1 ≠ q := fun he => h (he.symm.trans hk)
        simp only [mapSet, if_pos hk, mapGet, if_neg (Ne.symm h), if_neg hpq]
      · by_cases hq : p.1 = q
        · simp only [mapSet, if_neg hk, mapGet, if_pos hq]
        · simp only [mapSet, if_neg hk, mapGet, if_neg hq, ih]

theorem mapGet_delete_self (m : List (String × α)) (k : String) :
    mapGet (mapDelete m k) k = none := by
  induction m with
  | nil => simp [mapDelete, mapGet]
  | cons p rest ih =>
      by_cases hk : p.1 = k
      · simp [mapDelete, hk, ih]
      · simp [mapDelete, mapGet, hk, ih]

theorem mapGet_delete_ne (m : List (String × α)) {k q : String}
    (h : q ≠ k) : mapGet (mapDelete m k) q = mapGet m q := by
  induction m with
  | nil => simp [mapDelete]
  | cons p rest ih =>
      by_cases hk : p.1 = k
      · have hpq : p.1 ≠ q := fun he => h (he.symm.trans hk)
        simp only [mapDelete, if_pos hk, mapGet, if_neg hpq, ih]
      · by_cases hq : p.1 = q
        · simp only [mapDelete, if_neg hk, mapGet, if_pos hq]
        · simp only [mapDelete, if_neg hk, mapGet, if_neg hq, ih]

theorem mapDelete_sublist (m : List (String × α)) (k : String) :
    (mapDelete m k).Sublist m := by
  induction m with
  | nil => simp [mapDelete]
  | cons p rest ih =>
      by_cases hk : p.1 = k
      · simp only [mapDelete, if_pos hk]
        exact ih.cons p
      · simp only [mapDelete, if_neg hk]
        exact ih.cons₂ p

theorem nodupKeys_of_sublist {m m' : List (String × α)}
    (h : m'.Sublist m) (hnd : NodupKeys m) : NodupKeys m' :=
  List.Nodup.sublist (h.map Prod.fst) hnd

theorem nodupKeys_delete {m : List (String × α)} (k : String)
    (hnd : NodupKeys m) : NodupKeys (mapDelete m k) :=
  nodupKeys_of_sublist (mapDelete_sublist m k) hnd

theorem keys_mapSet_of_has {m : List (String × α)} {k : String} (v : α)
    (h : mapHas m k = true) :
    (mapSet m k v).map Prod.fst = m.map Prod.fst := by
  induction m with
  | nil => simp [mapHas] at h
  | cons p rest ih =>
      by_cases hk : p.1 = k
      · simp [mapSet, hk]
      · simp only [mapHas, Bool.or_eq_true, decide_eq_true_eq] at h
        rcases h with h | h
        · exact absurd h hk
        · simp [mapSet, hk, ih h]

theorem mem_mapSet_of_ne {m : List (String × α)} {k : String} {v : α}
    {p : String × α} (hp : p ∈ m) (h : p.1 ≠ k) : p ∈ mapSet m k v := by
  induction m with
  | nil => simp at hp
  | cons q rest ih =>
      rcases List.mem_cons.mp hp with h1 | h1
      · subst h1
        simp [mapSet, h]
      · by_cases hk : q.1 = k
        · simp [mapSet, hk, List.mem_cons, h1]
        · simp [mapSet, hk, ih h1]

theorem mem_keys_mapSet {m : List (String × α)} {k x : String} {v : α}
    (h : x ∈ (mapSet m k v).map Prod.fst) :
    x ∈ m.map Prod.fst ∨ x = k := by
  induction m with
  | nil => simpa [mapSet] using h
  | cons p rest ih =>
      by_cases hk : p.1 = k
      · simp only [mapSet, if_pos hk, List.map_cons, List.mem_cons] at h
        rcases h with h | h
        · exact Or.inr h
        · exact Or.inl (by simp [List.mem_cons, h])
      · simp only [mapSet, if_neg hk, List.map_cons, List.mem_cons] at h
        rcases h with h | h
        · exact Or.inl (by simp [List.mem_cons, h])
        · rcases ih h with h1 | h1
          · exact Or.inl (by simp [List.mem_cons, h1])
          · exact Or.inr h1

theorem nodupKeys_set {m : List (String × α)} {k : String} (v : α)
    (hnd : NodupKeys m) : NodupKeys (mapSet m k v) := by
  induction m with
  | nil => simp [mapSet, NodupKeys]
  | cons p rest ih =>
      by_cases hk : p.1 = k
      · unfold NodupKeys at hnd ⊢
        simp only [mapSet, if_pos hk, List.map_cons, List.nodup_cons] at hnd ⊢
        exact ⟨hk ▸ hnd.1, hnd.2⟩
      · unfold NodupKeys at hnd ⊢
        simp only [List.map_cons, List.nodup_cons] at hnd
        simp only [mapSet, if_neg hk, List.map_cons, List.nodup_cons]
        refine ⟨?_, by
          have := ih hnd.2
          unfold NodupKeys at this
          exact this⟩
        intro hmem
        rcases mem_keys_mapSet hmem with h1 | h1
        · exact hnd.1 h1
        · exact hk h1

theorem length_mapSet_of_has {m : List (String × α)} {k : String} (v : α)
    (h : mapHas m k = true) : (mapSet m k v).length = m.length := by
  have h1 : ((mapSet m k v).map Prod.fst).length = (m.map Prod.fst).length := by
    rw [keys_mapSet_of_has v h]
  simpa using h1

theorem length_mapSet_of_not_has {m : List (String × α)} {k : String} (v : α)
    (h : ¬ mapHas m k = true) : (mapSet m k v).length = m.length + 1 := by
  induction m with
  | nil => simp [mapSet]
  | cons p rest ih =>
      simp only [mapHas, Bool.or_eq_true, decide_eq_true_eq] at h
      push_neg at h
      simp [mapSet, h.1, ih (by simpa using h.2)]

theorem length_mapDelete_le (m : List (String × α)) (k : String) :
    (mapDelete m k).length ≤ m.length :=
  (mapDelete_sublist m k).length_le

theorem length_mapDelete_of_get {m : List (String × α)} {k : String} {v : α}
    (hnd : NodupKeys m) (h : mapGet m k = some v) :
    (mapDelete m k).length + 1 = m.length := by
  induction m with
  | nil => simp [mapGet] at h
  | cons p rest ih =>
      by_cases hk : p.1 = k
      · have hrest : mapDelete rest k = rest := by
          have hnone : mapGet rest k = none := by
            rw [mapGet_eq_none_iff]
            intro w hw
            exact (nodupKeys_cons hnd).1 w (hk ▸ hw)
          clear ih h hnd
          induction rest with
          | nil => simp [mapDelete]
          | cons q rr ihr =>
              by_cases hq : q.1 = k
              · simp [mapGet, hq] at hnone
              · simp only [mapGet, if_neg hq] at hnone
                simp [mapDelete, hq, ihr hnone]
        simp [mapDelete, hk, hrest]
      · simp only [mapGet, if_neg hk] at h
        simp [mapDelete, hk, ih (nodupKeys_cons hnd).2 h]

theorem mapHas_of_sublist {m m' : List (String × α)} {k : String}
    (hsub : m'.Sublist m) (h : mapHas m' k = true) : mapHas m k = true := by
  rcases mapHas_iff_exists.mp h with ⟨v, hv⟩
  exact mapHas_iff_exists.mpr ⟨v, hsub.mem hv⟩

theorem mapSet_eq_append_of_not_has {m : List (String × α)} {k : String}
    (v : α) (h : ¬ mapHas m k = true) : mapSet m k v = m ++ [(k, v)] := by
  induction m with
  | nil => simp [mapSet]
  | cons p rest ih =>
      simp only [mapHas, Bool.or_eq_true, decide_eq_true_eq] at h
      push_neg at h
      simp [mapSet, h.1, ih (by simpa [mapHas] using h.2)]

/-! ## Lemmas about the store operations -/

namespace Store

theorem removeEntry_get (k : String) (s : StoreState) (q : String) :
    mapGet (removeEntry k s).entries q =
      if q = k then none else mapGet s.entries q := by
  unfold removeEntry
  rcases h : mapGet s.entries k with _ | e
  · by_cases hq : q = k
    · simp [hq, h]
    · simp [hq]
  · by_cases hq : q = k
    · simp [hq, mapGet_delete_self]
    · simp [hq, mapGet_delete_ne _ hq]

theorem removeEntry_entries_sublist (k : String) (s : StoreState) :
    (removeEntry k s).entries.Sublist s.entries := by
  unfold removeEntry
  rcases h : mapGet s.entries k with _ | e
  · simp
  · simpa using mapDelete_sublist s.entries k

theorem pruneLoop_entries_sublist (now : Nat) :
    ∀ (l : List (String × CacheEntry)) (s : StoreState),
      ((pruneLoop now l s).entries).Sublist s.entries := by
  intro l
  induction l with
  | nil => intro s; simp [pruneLoop]
  | cons p rest ih =>
      intro s
      obtain ⟨k, e⟩ := p
      show ((pruneLoop now rest _).entries).Sublist s.entries
      by_cases hex : expiredAt now e = true
      · simp only [hex, if_true]
        exact (ih (removeEntry k s)).trans (removeEntry_entries_sublist k s)
      · simp only [hex, if_false]
        exact ih s

theorem pruneExpired_entries_sublist (now : Nat) (s : StoreState) :
    ((pruneExpired now s).entries).Sublist s.entries :=
  pruneLoop_entries_sublist now s.entries s

theorem pruneExpired_nodup {now : Nat} {s : StoreState}
    (hnd : NodupKeys s.entries) : NodupKeys (pruneExpired now s).entries :=
  nodupKeys_of_sublist (pruneExpired_entries_sublist now s) hnd

theorem pruneLoop_get (now : Nat) (q : String) :
    ∀ (l : List (String × CacheEntry)) (s : StoreState),
      NodupKeys l → (∀ p ∈ l, mapGet s.entries p.1 = some p.2) →
      mapGet (pruneLoop now l s).entries q =
        if l.any (fun p => p.1 == q && expiredAt now p.2) then none
        else mapGet s.entries q := by
  intro l
  induction l with
  | nil => intro s _ _; simp [pruneLoop]
  | cons p rest ih =>
      intro s hnd hagree
      obtain ⟨k, e⟩ := p
      have hkrest : ∀ w, (k, w) ∉ rest := (nodupKeys_cons hnd).1
      by_cases hex : expiredAt now e = true
      · have hagree2 : ∀ p ∈ rest, mapGet (removeEntry k s).entries p.1 = some p.2 := by
          intro p hp
          have hpk : p.1 ≠ k := by
            intro he
            exact hkrest p.2 (by rw [← he]; exact hp)
          rw [removeEntry_get, if_neg hpk]
          exact hagree p (List.mem_cons_of_mem _ hp)
        have step : pruneLoop now ((k, e) :: rest) s =
            pruneLoop now rest (removeEntry k s) := by
          simp [pruneLoop, hex]
        rw [step, ih (removeEntry k s) (nodupKeys_cons hnd).2 hagree2]
        by_cases hq : k = q
        · subst hq
          have hany : (((k, e) :: rest).any fun p => p.1 == k && expiredAt now p.2) = true := by
            simp [hex]
          rw [if_pos hany]
          by_cases hr : (rest.any fun p => p.1 == k && expiredAt now p.2) = true
          · rw [if_pos hr]
          · rw [if_neg hr, removeEntry_get, if_pos rfl]
        · have hrw : mapGet (removeEntry k s).entries q = mapGet s.entries q := by
            rw [removeEntry_get, if_neg (fun he => hq he.symm)]
          have hany : (((k, e) :: rest).any fun p => p.1 == q && expiredAt now p.2) =
              (rest.any fun p => p.1 == q && expiredAt now p.2) := by
            simp [show (k == q) = false by simpa using hq]
          rw [hrw, hany]
      · have step : pruneLoop now ((k, e) :: rest) s = pruneLoop now rest s := by
          simp [pruneLoop, hex]
        rw [step, ih s (nodupKeys_cons hnd).2
          (fun p hp => hagree p (List.mem_cons_of_mem _ hp))]
        have hany : (k == q && expiredAt now e ||
            rest.any fun p => p.1 == q && expiredAt now p.2) =
            (rest.any fun p => p.1 == q && expiredAt now p.2) := by
          simp [show expiredAt now e = false by simpa using hex]
        rw [List.any_cons, hany]

theorem pruneExpired_get (now : Nat) {s : StoreState}
    (hnd : NodupKeys s.entries) (q : String) :
    mapGet (pruneExpired now s).entries q =
      match mapGet s.entries q with
      | none => none
      | some e => if expiredAt now e then none else some e := by
  unfold pruneExpired
  rw [pruneLoop_get now q s.entries s hnd
    (fun p hp => mapGet_eq_some_of_mem hnd hp)]
  rcases hg : mapGet s.entries q with _ | e
  · have : s.entries.any (fun p => p.1 == q && expiredAt now p.2) = false := by
      rw [List.any_eq_false]
      rintro ⟨k, w⟩ hm
      simp only [Bool.and_eq_true, beq_iff_eq, not_and]
      intro hk _
      subst hk
      rw [mapGet_eq_some_of_mem hnd hm] at hg
      cases hg
    simp [this, hg]
  · by_cases hex : expiredAt now e = true
    · have : s.entries.any (fun p => p.1 == q && expiredAt now p.2) = true := by
        rw [List.any_eq_true]
        exact ⟨(q, e), mem_of_mapGet_eq_some hg, by simp [hex]⟩
      simp [this, hex]
    · have : s.entries.any (fun p => p.1 == q && expiredAt now p.2) = false := by
        rw [List.any_eq_false]
        rintro ⟨k, w⟩ hm
        simp only [Bool.and_eq_true, beq_iff_eq, not_and]
        intro hk
        subst hk
        rw [mapGet_eq_some_of_mem hnd hm] at hg
        cases hg
        simpa using hex
      simp [this, hg, hex]

theorem registerList_preserved {key : String} :
    ∀ (as : List String) (idx : List (String × String)) (q : String),
      mapGet idx q = some key →
      mapGet (as.foldl (fun acc a => mapSet acc (normalizeKey a) key) idx) q
        = some key := by
  intro as
  induction as with
  | nil => intro idx q h; exact h
  | cons a rest ih =>
      intro idx q h
      refine ih _ q ?_
      by_cases hq : q = normalizeKey a
      · subst hq; exact mapGet_set_self _ _ _
      · rw [mapGet_set_ne _ _ hq]; exact h

theorem registerList_sets {key : String} :
    ∀ (as : List String) (idx : List (String × String)) (a : String), a ∈ as →
      mapGet (as.foldl (fun acc a => mapSet acc (normalizeKey a) key) idx)
        (normalizeKey a) = some key := by
  intro as
  induction as with
  | nil => intro idx a h; simp at h
  | cons b rest ih =>
      intro idx a h
      rcases List.mem_cons.mp h with h1 | h1
      · subst h1
        exact registerList_preserved rest _ _ (mapGet_set_self _ _ _)
      · exact ih _ a h1

theorem registerAliasIndex_preserved {e : CacheEntry} {key q : String}
    {idx : List (String × String)} (h : mapGet idx q = some key) :
    mapGet (registerAliasIndex e key idx) q = some key :=
  registerList_preserved _ _ _ h

theorem registerAliasIndex_sets {e : CacheEntry} {key : String}
    {idx : List (String × String)} {a : String} (h : a ∈ e.aliases.getD []) :
    mapGet (registerAliasIndex e key idx) (normalizeKey a) = some key :=
  registerList_sets _ _ _ h

theorem removeAliasStep_preserved {kRem key q a : String}
    {idx : List (String × String)}
    (hne : key ≠ kRem) (h : mapGet idx q = some key) :
    mapGet (removeAliasStep kRem idx a) q = some key := by
  unfold removeAliasStep
  by_cases hq : q = normalizeKey a
  · rw [← hq, h]
    simp only [show (key == kRem) = false by simpa using hne, Bool.false_eq_true,
      if_false]
    exact h
  · rcases hm : mapGet idx (normalizeKey a) with _ | mapped
    · simp only [hm]; exact h
    · simp only [hm]
      by_cases hmk : (mapped == kRem) = true
      · rw [if_pos hmk, mapGet_delete_ne _ hq]; exact h
      · rw [if_neg hmk]; exact h

theorem removeAliasIndex_preserved {e2 : CacheEntry} {kRem key q : String}
    {idx : List (String × String)}
    (hne : key ≠ kRem) (h : mapGet idx q = some key) :
    mapGet (removeAliasIndex e2 kRem idx) q = some key := by
  unfold removeAliasIndex
  generalize e2.aliases.getD [] = as
  induction as generalizing idx with
  | nil => exact h
  | cons a rest ih => exact ih (removeAliasStep_preserved hne h)

theorem removeEntry_alias_preserved {k key q : String} {s : StoreState}
    (h : mapGet s.aliasIndex q = some key) (hne : key ≠ k) :
    mapGet (removeEntry k s).aliasIndex q = some key := by
  unfold removeEntry
  rcases hg : mapGet s.entries k with _ | e
  · exact h
  · exact removeAliasIndex_preserved hne h

theorem pruneLoop_alias_preserved (now : Nat) {key q : String} :
    ∀ (l : List (String × CacheEntry)) (s : StoreState),
      (∀ p ∈ l, expiredAt now p.2 = true → p.1 ≠ key) →
      mapGet s.aliasIndex q = some key →
      mapGet (pruneLoop now l s).aliasIndex q = some key := by
  intro l
  induction l with
  | nil => intro s _ h; exact h
  | cons p rest ih =>
      intro s hsafe h
      obtain ⟨k, e⟩ := p
      by_cases hex : expiredAt now e = true
      · have hk : k ≠ key := hsafe (k, e) (List.mem_cons_self _ _) hex
        have step : pruneLoop now ((k, e) :: rest) s =
            pruneLoop now rest (removeEntry k s) := by
          simp [pruneLoop, hex]
        rw [step]
        exact ih _ (fun p hp hpe => hsafe p (List.mem_cons_of_mem _ hp) hpe)
          (removeEntry_alias_preserved h (fun he => hk he.symm))
      · have step : pruneLoop now ((k, e) :: rest) s = pruneLoop now rest s := by
          simp [pruneLoop, hex]
        rw [step]
        exact ih _ (fun p hp hpe => hsafe p (List.mem_cons_of_mem _ hp) hpe) h

theorem pruneExpired_alias_preserved {now : Nat} {key q : String}
    {s : StoreState}
    (hsafe : ∀ p ∈ s.entries, expiredAt now p.2 = true → p.1 ≠ key)
    (h : mapGet s.aliasIndex q = some key) :
    mapGet (pruneExpired now s).aliasIndex q = some key :=
  pruneLoop_alias_preserved now s.entries s hsafe h

/-! ### The eviction minimum -/

theorem lastLex_refl (p : Nat × (String × CacheEntry)) : lastLex p p :=
  Or.inr ⟨rfl, le_refl _⟩

/-- `p` is an index-tagged entry of `m` that every other tagged entry
dominates under `lastLex`: the entry `enforceCapacity` evicts first
(oldest `lastAccessedAt`, ties broken by insertion order). -/
def minTagged (m : List (String × CacheEntry))
    (p : Nat × (String × CacheEntry)) : Prop :=
  p ∈ m.enum ∧ ∀ q ∈ m.enum, lastLex p q

theorem snd_mem_of_mem_enum {l : List α} {p : Nat × α} (h : p ∈ l.enum) :
    p.2 ∈ l :=
  List.getElem?_mem (List.mem_enum_iff_getElem?.mp h)

theorem insertionSortHead_min {l : List (String × CacheEntry)}
    {th : Nat × (String × CacheEntry)} {tt : List (Nat × (String × CacheEntry))}
    (h : (l.enum).insertionSort lastLex = th :: tt) : minTagged l th := by
  have hperm := List.perm_insertionSort lastLex l.enum
  constructor
  · exact hperm.mem_iff.mp (h ▸ List.mem_cons_self th tt)
  · intro q hq
    have hq2 : q ∈ (l.enum).insertionSort lastLex := hperm.mem_iff.mpr hq
    rw [h] at hq2
    rcases List.mem_cons.mp hq2 with h1 | h1
    · rw [h1]; exact lastLex_refl th
    · have hsorted := List.sorted_insertionSort lastLex l.enum
      rw [h] at hsorted
      exact (List.sorted_cons.mp hsorted).1 q h1

theorem evictLoop_of_le {l : List (String × CacheEntry)} {s : StoreState}
    (h : s.entries.length ≤ CACHE_MAX_ENTRIES) : evictLoop l s = s := by
  cases l with
  | nil => rfl
  | cons p rest =>
      obtain ⟨k, e⟩ := p
      simp [evictLoop, h]

theorem enforceCapacity_of_le {s : StoreState}
    (h : s.entries.length ≤ CACHE_MAX_ENTRIES) : enforceCapacity s = s := by
  unfold enforceCapacity
  simp [h]

theorem enforceCapacity_eq_of_len {s : StoreState}
    (hnd : NodupKeys s.entries)
    (hlen : s.entries.length = CACHE_MAX_ENTRIES + 1) :
    ∃ p, minTagged s.entries p ∧ p.2 ∈ s.entries ∧
      enforceCapacity s = removeEntry p.2.1 s ∧
      (removeEntry p.2.1 s).entries.length = CACHE_MAX_ENTRIES := by
  have hsortlen : ((s.entries.enum).insertionSort lastLex).length
      = CACHE_MAX_ENTRIES + 1 := by
    rw [(List.perm_insertionSort lastLex s.entries.enum).length_eq,
      List.enum_length, hlen]
  rcases hsort : (s.entries.enum).insertionSort lastLex with _ | ⟨th, tt⟩
  · rw [hsort] at hsortlen; simp at hsortlen
  · have hmin := insertionSortHead_min hsort
    obtain ⟨i, k, e⟩ := th
    have hmem : (k, e) ∈ s.entries := snd_mem_of_mem_enum hmin.1
    have hget : mapGet s.entries k = some e := mapGet_eq_some_of_mem hnd hmem
    have hrlen : (removeEntry k s).entries.length = CACHE_MAX_ENTRIES := by
      have hdel := length_mapDelete_of_get hnd hget
      unfold removeEntry
      rw [hget]
      simp only []
      omega
    refine ⟨(i, k, e), hmin, hmem, ?_, hrlen⟩
    unfold enforceCapacity
    rw [if_neg (by omega)]
    unfold sortByLastAccessed
    rw [hsort]
    simp only [List.map_cons]
    show evictLoop ((k, e) :: tt.map _) s = removeEntry k s
    have hstep : evictLoop ((k, e) :: tt.map (fun p => p.2)) s =
        evictLoop (tt.map (fun p => p.2)) (removeEntry k s) := by
      show (if s.entries.length ≤ CACHE_MAX_ENTRIES then s
          else evictLoop (tt.map (fun p => p.2)) (removeEntry k s)) = _
      rw [if_neg (by omega)]
    rw [hstep]
    exact evictLoop_of_le (by omega)

theorem minTagged_key_ne {m : List (String × CacheEntry)}
    {p : Nat × (String × CacheEntry)} (hnd : NodupKeys m) (hmin : minTagged m p)
    {k k2 : String} {e e2 : CacheEntry}
    (hk : (k, e) ∈ m) (hk2 : (k2, e2) ∈ m)
    (hlt : e2.lastAccessedAt < e.lastAccessedAt) : p.2.1 ≠ k := by
  intro hpk
  have hpmem : p.2 ∈ m := snd_mem_of_mem_enum hmin.1
  have hpe : p.2.2 = e := by
    have h1 : mapGet m k = some e := mapGet_eq_some_of_mem hnd hk
    have h2 : mapGet m k = some p.2.2 := by
      rw [← hpk]
      exact mapGet_eq_some_of_mem hnd (by simpa using hpmem)
    rw [h1] at h2
    exact (Option.some.injEq .. ▸ h2).symm
  rcases List.mem_iff_get.mp hk2 with ⟨⟨j, hj⟩, hje⟩
  have hjm : (j, (k2, e2)) ∈ m.enum := by
    rw [List.mem_enum_iff_getElem?]
    simpa using List.getElem?_eq_getElem hj ▸ congrArg some (by simpa using hje)
  have hcmp := hmin.2 (j, (k2, e2)) hjm
  unfold lastLex at hcmp
  rw [hpe] at hcmp
  simp only at hcmp
  rcases hcmp with h | ⟨h, _⟩ <;> omega

theorem minTagged_key_ne_appended {prev : List (String × CacheEntry)}
    {x : String × CacheEntry} {p : Nat × (String × CacheEntry)}
    (hnd : NodupKeys (prev ++ [x])) (hmin : minTagged (prev ++ [x]) p)
    (hne : prev ≠ [])
    (hle : ∀ q ∈ prev, q.2.lastAccessedAt ≤ x.2.lastAccessedAt) :
    p.2.1 ≠ x.1 := by
  intro hpk
  have hxm : x ∈ prev ++ [x] := by simp
  have hpmem : p.2 ∈ prev ++ [x] := snd_mem_of_mem_enum hmin.1
  have hpx : p.2 = x := by
    have h1 : mapGet (prev ++ [x]) x.1 = some x.2 :=
      mapGet_eq_some_of_mem hnd (by simp)
    have h2 : mapGet (prev ++ [x]) x.1 = some p.2.2 := by
      rw [← hpk]
      exact mapGet_eq_some_of_mem hnd (by simpa using hpmem)
    rw [h1] at h2
    exact Prod.ext hpk (Option.some.injEq .. ▸ h2).symm
  have hgp := List.mem_enum_iff_getElem?.mp hmin.1
  have hplen : p.1 < (prev ++ [x]).length := (List.getElem?_eq_some.mp hgp).1
  have hpidx : p.1 = prev.length := by
    by_contra hne2
    have hlt : p.1 < prev.length := by
      have : (prev ++ [x]).length = prev.length + 1 := by simp
      omega
    have hprev : prev[p.1]? = some p.2 := by
      rw [← List.getElem?_append_left hlt]
      exact hgp
    have hmemprev : p.2 ∈ prev := List.getElem?_mem hprev
    rw [hpx] at hmemprev
    unfold NodupKeys at hnd
    rw [List.map_append] at hnd
    have hdisj := (List.nodup_append.mp hnd).2.2
    exact hdisj (List.mem_map.mpr ⟨x, hmemprev, rfl⟩) (by simp)
  obtain ⟨y, prev2, hy⟩ := List.exists_cons_of_ne_nil hne
  have hy0 : (prev ++ [x])[0]? = some y := by
    rw [hy]
    simp
  have hymem : (0, y) ∈ (prev ++ [x]).enum := by
    rw [List.mem_enum_iff_getElem?]
    exact hy0
  have hcmp := hmin.2 (0, y) hymem
  unfold lastLex at hcmp
  rw [hpx, hpidx] at hcmp
  simp only at hcmp
  have hyle : y.2.lastAccessedAt ≤ x.2.lastAccessedAt :=
    hle y (by rw [hy]; exact List.mem_cons_self _ _)
  have hplen2 : 0 < prev.length := by
    rw [hy]; simp
  rcases hcmp with h | ⟨h1, h2⟩ <;> omega

/-! ### The state after `upsert` -/

theorem evictLoop_entries_sublist :
    ∀ (l : List (String × CacheEntry)) (s : StoreState),
      ((evictLoop l s).entries).Sublist s.entries := by
  intro l
  induction l with
  | nil => intro s; exact List.Sublist.refl _
  | cons p rest ih =>
      intro s
      obtain ⟨k, e⟩ := p
      show (if s.entries.length ≤ CACHE_MAX_ENTRIES then s
        else evictLoop rest (removeEntry k s)).entries.Sublist s.entries
      by_cases h : s.entries.length ≤ CACHE_MAX_ENTRIES
      · rw [if_pos h]
      · rw [if_neg h]
        exact (ih (removeEntry k s)).trans (removeEntry_entries_sublist k s)

theorem enforceCapacity_entries_sublist (s : StoreState) :
    ((enforceCapacity s).entries).Sublist s.entries := by
  unfold enforceCapacity
  by_cases h : s.entries.length ≤ CACHE_MAX_ENTRIES
  · rw [if_pos h]
  · rw [if_neg h]
    exact evictLoop_entries_sublist _ s

theorem upsertPlaced_entries (now : Nat) (input : CacheEntryInput)
    (s : StoreState) :
    (upsertPlaced now input s).entries =
      mapSet (pruneExpired now s).entries (normalizeKey input.searchTerm)
        (mkEntry input now) := by
  unfold upsertPlaced
  rcases h : mapGet (pruneExpired now s).entries (normalizeKey input.searchTerm)
    with _ | e <;> simp [h]

theorem upsertPlaced_nodup {now : Nat} {input : CacheEntryInput}
    {s : StoreState} (hnd : NodupKeys s.entries) :
    NodupKeys (upsertPlaced now input s).entries := by
  rw [upsertPlaced_entries]
  exact nodupKeys_set _ (pruneExpired_nodup hnd)

theorem upsertPlaced_get_key (now : Nat) (input : CacheEntryInput)
    (s : StoreState) :
    mapGet (upsertPlaced now input s).entries (normalizeKey input.searchTerm)
      = some (mkEntry input now) := by
  rw [upsertPlaced_entries]
  exact mapGet_set_self _ _ _

theorem upsertPlaced_len_le {now : Nat} {input : CacheEntryInput}
    {s : StoreState} (hcap : s.entries.length ≤ CACHE_MAX_ENTRIES) :
    (upsertPlaced now input s).entries.length ≤ CACHE_MAX_ENTRIES + 1 := by
  rw [upsertPlaced_entries]
  have hpr := (pruneExpired_entries_sublist now s).length_le
  by_cases h : mapHas (pruneExpired now s).entries
      (normalizeKey input.searchTerm) = true
  · rw [length_mapSet_of_has _ h]; omega
  · rw [length_mapSet_of_not_has _ h]; omega

/-- After `upsert`, the store is either the placed state (no eviction)
or the placed state with exactly the `lastLex`-minimal tagged entry
removed, and that entry's key is not the freshly upserted key. -/
theorem upsert_state_eq {s : StoreState} {now : Nat} {input : CacheEntryInput}
    (hnd : NodupKeys s.entries) (hcap : s.entries.length ≤ CACHE_MAX_ENTRIES)
    (hts : ∀ p ∈ s.entries, p.2.lastAccessedAt ≤ now) :
    ((upsert now input s).2 = upsertPlaced now input s ∧
      (upsertPlaced now input s).entries.length ≤ CACHE_MAX_ENTRIES) ∨
    ((upsertPlaced now input s).entries.length = CACHE_MAX_ENTRIES + 1 ∧
      ∃ p, minTagged (upsertPlaced now input s).entries p ∧
        p.2.1 ≠ normalizeKey input.searchTerm ∧
        (upsert now input s).2 = removeEntry p.2.1 (upsertPlaced now input s) ∧
        (removeEntry p.2.1 (upsertPlaced now input s)).entries.length
          = CACHE_MAX_ENTRIES) := by
  have hpnd := @upsertPlaced_nodup now input _ hnd
  by_cases hlen : (upsertPlaced now input s).entries.length ≤ CACHE_MAX_ENTRIES
  · left
    refine ⟨?_, hlen⟩
    show enforceCapacity (upsertPlaced now input s) = upsertPlaced now input s
    exact enforceCapacity_of_le hlen
  · right
    have hlen51 : (upsertPlaced now input s).entries.length
        = CACHE_MAX_ENTRIES + 1 := by
      have := @upsertPlaced_len_le now input _ hcap
      omega
    obtain ⟨p, hmin, hpm, heq, hrlen⟩ := enforceCapacity_eq_of_len hpnd hlen51
    have hph : ¬ mapHas (pruneExpired now s).entries
        (normalizeKey input.searchTerm) = true := by
      intro hh
      have h1 := length_mapSet_of_has (mkEntry input now) hh
      have h2 := (pruneExpired_entries_sublist now s).length_le
      rw [upsertPlaced_entries] at hlen51
      omega
    have happend : (upsertPlaced now input s).entries =
        (pruneExpired now s).entries ++
          [(normalizeKey input.searchTerm, mkEntry input now)] := by
      rw [upsertPlaced_entries]
      exact mapSet_eq_append_of_not_has _ hph
    have hprevne : (pruneExpired now s).entries ≠ [] := by
      intro he
      rw [happend, he] at hlen51
      simp [CACHE_MAX_ENTRIES] at hlen51
    have hle2 : ∀ q ∈ (pruneExpired now s).entries,
        q.2.lastAccessedAt ≤
          (normalizeKey input.searchTerm, mkEntry input now).2.lastAccessedAt := by
      intro q hq
      have hqs : q ∈ s.entries := (pruneExpired_entries_sublist now s).subset hq
      simpa [mkEntry] using hts q hqs
    have hkey : p.2.1 ≠ normalizeKey input.searchTerm := by
      rw [happend] at hpnd hmin
      exact minTagged_key_ne_appended hpnd hmin hprevne hle2
    refine ⟨hlen51, p, hmin, hkey, ?_, hrlen⟩
    show enforceCapacity (upsertPlaced now input s)
      = removeEntry p.2.1 (upsertPlaced now input s)
    exact heq

theorem upsert_nodup {s : StoreState} {now : Nat} {input : CacheEntryInput}
    (hnd : NodupKeys s.entries) :
    NodupKeys ((upsert now input s).2).entries := by
  show NodupKeys (enforceCapacity (upsertPlaced now input s)).entries
  exact nodupKeys_of_sublist (enforceCapacity_entries_sublist _)
    (upsertPlaced_nodup hnd)

theorem upsert_get_key {s : StoreState} {now : Nat} {input : CacheEntryInput}
    (hnd : NodupKeys s.entries) (hcap : s.entries.length ≤ CACHE_MAX_ENTRIES)
    (hts : ∀ p ∈ s.entries, p.2.lastAccessedAt ≤ now) :
    mapGet ((upsert now input s).2).entries (normalizeKey input.searchTerm)
      = some (mkEntry input now) := by
  rcases @upsert_state_eq _ _ input hnd hcap hts with ⟨heq, _⟩ | ⟨_, p, _, hkey, heq, _⟩
  · rw [heq]
    exact upsertPlaced_get_key now input s
  · rw [heq, removeEntry_get, if_neg (fun he => hkey he.symm)]
    exact upsertPlaced_get_key now input s

theorem upsertPlaced_alias_sets {s : StoreState} {now : Nat}
    {input : CacheEntryInput} {a : String} (ha : a ∈ input.aliases.getD []) :
    mapGet (upsertPlaced now input s).aliasIndex (normalizeKey a)
      = some (normalizeKey input.searchTerm) := by
  unfold upsertPlaced
  rcases h : mapGet (pruneExpired now s).entries (normalizeKey input.searchTerm)
    with _ | e <;>
    simp only [h] <;>
    exact registerAliasIndex_sets (by simpa [mkEntry] using ha)

theorem upsert_alias_key {s : StoreState} {now : Nat} {input : CacheEntryInput}
    {a : String}
    (hnd : NodupKeys s.entries) (hcap : s.entries.length ≤ CACHE_MAX_ENTRIES)
    (hts : ∀ p ∈ s.entries, p.2.lastAccessedAt ≤ now)
    (ha : a ∈ input.aliases.getD []) :
    mapGet ((upsert now input s).2).aliasIndex (normalizeKey a)
      = some (normalizeKey input.searchTerm) := by
  rcases @upsert_state_eq _ _ input hnd hcap hts with ⟨heq, _⟩ | ⟨_, p, _, hkey, heq, _⟩
  · rw [heq]
    exact upsertPlaced_alias_sets ha
  · rw [heq]
    exact removeEntry_alias_preserved (upsertPlaced_alias_sets ha)
      (fun he => hkey he.symm)

/-! ### The `get` paths -/

theorem get_eq (now : Nat) (t : String) (s : StoreState) :
    get now t s =
      match resolveKey t (pruneExpired now s) with
      | none => (none, pruneExpired now s)
      | some key =>
          match mapGet (pruneExpired now s).entries key with
          | none => (none, pruneExpired now s)
          | some e =>
              (some { e with lastAccessedAt := now },
                { pruneExpired now s with entries :=
                    (mapSet (pruneExpired now s).entries key
                      { e with lastAccessedAt := now }) }) := rfl

theorem get_hit {s : StoreState} {now : Nat} {t : String} {e : CacheEntry}
    (hnd : NodupKeys s.entries)
    (hget : mapGet s.entries (normalizeKey t) = some e)
    (hlive : expiredAt now e = false) :
    get now t s = (some { e with lastAccessedAt := now },
      { pruneExpired now s with entries :=
          (mapSet (pruneExpired now s).entries (normalizeKey t)
            { e with lastAccessedAt := now }) }) := by
  have h1 : mapGet (pruneExpired now s).entries (normalizeKey t) = some e := by
    rw [pruneExpired_get now hnd]
    rw [hget]
    simp [hlive]
  have h2 : resolveKey t (pruneExpired now s) = some (normalizeKey t) := by
    unfold resolveKey
    rw [if_pos (by rw [mapHas_eq_isSome, h1]; rfl)]
  rw [get_eq]
  simp only [h2, h1]

theorem get_hit_alias {s : StoreState} {now : Nat} {t key : String}
    {e : CacheEntry}
    (hmiss : mapHas (pruneExpired now s).entries (normalizeKey t) = false)
    (halias : mapGet (pruneExpired now s).aliasIndex (normalizeKey t) = some key)
    (hget : mapGet (pruneExpired now s).entries key = some e) :
    get now t s = (some { e with lastAccessedAt := now },
      { pruneExpired now s with entries :=
          (mapSet (pruneExpired now s).entries key
            { e with lastAccessedAt := now }) }) := by
  have h2 : resolveKey t (pruneExpired now s) = some key := by
    unfold resolveKey
    rw [if_neg (by simp [hmiss]), halias]
  rw [get_eq]
  simp only [h2, hget]

theorem pruneExpired_all_live (now : Nat) {s : StoreState}
    (hnd : NodupKeys s.entries) :
    ∀ p ∈ (pruneExpired now s).entries, expiredAt now p.2 = false := by
  intro p hp
  have hpn := @pruneExpired_nodup now _ hnd
  have hget := mapGet_eq_some_of_mem hpn (by
    rw [show (p.1, p.2) = p from rfl]; exact hp)
  rw [pruneExpired_get now hnd] at hget
  split at hget
  · cases hget
  · split at hget
    · cases hget
    · next e _ hex =>
        have he : e = p.2 := by injection hget
        rw [← he]
        simpa using hex

theorem get_state_none {s : StoreState} (now : Nat) (t : String) {q : String}
    (hq : mapGet (pruneExpired now s).entries q = none) :
    mapGet ((get now t s).2).entries q = none := by
  rw [get_eq]
  rcases h2 : resolveKey t (pruneExpired now s) with _ | key
  · simp only [h2]
    exact hq
  · simp only [h2]
    rcases h3 : mapGet (pruneExpired now s).entries key with _ | e
    · simp only [h3]
      exact hq
    · simp only [h3]
      have hqk : q ≠ key := by
        intro he
        rw [he, h3] at hq
        cases hq
      rw [mapGet_set_ne _ _ hqk]
      exact hq

theorem get_result_live {s : StoreState} {now : Nat} {t : String}
    (hnd : NodupKeys s.entries) :
    ∀ r, (get now t s).1 = some r → ¬ CACHE_TTL_MS < now - r.updatedAt := by
  intro r hr
  rw [get_eq] at hr
  rcases h2 : resolveKey t (pruneExpired now s) with _ | key
  · simp only [h2] at hr; cases hr
  · simp only [h2] at hr
    rcases h3 : mapGet (pruneExpired now s).entries key with _ | e
    · simp only [h3] at hr; cases hr
    · simp only [h3, Option.some.injEq] at hr
      have hmem : (key, e) ∈ (pruneExpired now s).entries :=
        mem_of_mapGet_eq_some h3
      have hlive := pruneExpired_all_live now hnd (key, e) hmem
      rw [← hr]
      simpa [expiredAt] using hlive

/-! ### The snapshot -/

theorem getSnapshot_state (now limit : Nat) (kf : KindFilter) (s : StoreState) :
    (getSnapshot now limit kf s).2 = pruneExpired now s := rfl

theorem sortByUpdatedDesc_perm (l : List CacheEntry) :
    (sortByUpdatedDesc l).Perm l := by
  unfold sortByUpdatedDesc
  have h1 := (List.perm_insertionSort updatedLex l.enum).map (fun p => p.2)
  have h2 : l.enum.map (fun p => p.2) = l := List.enum_map_snd l
  rw [h2] at h1
  exact h1

theorem mem_snapshotSlice {now limit : Nat} {kf : KindFilter} {s : StoreState}
    {r : CacheEntry} (h : r ∈ snapshotSlice now limit kf s) :
    ∃ p ∈ (pruneExpired now s).entries, p.2 = r ∧ entryKindMatches kf r = true := by
  unfold snapshotSlice at h
  have h1 : r ∈ sortByUpdatedDesc
      (((pruneExpired now s).entries.map (fun p => p.2)).filter
        (entryKindMatches kf)) := List.take_subset _ _ h
  have h2 := (sortByUpdatedDesc_perm _).subset h1
  have h3 := List.mem_filter.mp h2
  rcases List.mem_map.mp h3.1 with ⟨p, hp, hpr⟩
  exact ⟨p, hp, hpr, hpr ▸ h3.2⟩

theorem snapshotSlice_live {now limit : Nat} {kf : KindFilter} {s : StoreState}
    (hnd : NodupKeys s.entries) :
    ∀ r ∈ snapshotSlice now limit kf s, expiredAt now r = false := by
  intro r hr
  rcases mem_snapshotSlice hr with ⟨p, hp, hpr, _⟩
  rw [← hpr]
  exact pruneExpired_all_live now hnd p hp

/-! ### The store invariant over reachable states -/

/-- Every alias-index binding points at a key that currently holds an
entry owning that alias (the bound alias is one of the entry's
normalized aliases). -/
def AliasGood (s : StoreState) : Prop :=
  ∀ p ∈ s.aliasIndex, ∃ e, mapGet s.entries p.2 = some e ∧
    p.1 ∈ (e.aliases.getD []).map normalizeKey

/-- The invariant every `LibraryCacheStore` state reachable through
the public operations satisfies. -/
def StoreInv (s : StoreState) : Prop :=
  NodupKeys s.entries ∧ NodupKeys s.aliasIndex ∧
    s.entries.length ≤ CACHE_MAX_ENTRIES ∧ AliasGood s

/-- The states reachable from a fresh store through the public
operations of `LibraryCacheStore`. -/
inductive Reachable : StoreState → Prop
  | empty : Reachable emptyStore
  | upsertStep (now : Nat) (input : CacheEntryInput) {s : StoreState} :
      Reachable s → Reachable (upsert now input s).2
  | getStep (now : Nat) (t : String) {s : StoreState} :
      Reachable s → Reachable (get now t s).2
  | snapshotStep (now limit : Nat) (kf : KindFilter) {s : StoreState} :
      Reachable s → Reachable (getSnapshot now limit kf s).2

theorem mem_of_mem_mapSet {m : List (String × α)} {k : String} {v : α}
    {p : String × α} (h : p ∈ mapSet m k v) : p ∈ m ∨ p = (k, v) := by
  induction m with
  | nil => simpa [mapSet] using h
  | cons q rest ih =>
      by_cases hk : q.1 = k
      · simp only [mapSet, if_pos hk, List.mem_cons] at h
        rcases h with h | h
        · exact Or.inr h
        · exact Or.inl (List.mem_cons_of_mem _ h)
      · simp only [mapSet, if_neg hk, List.mem_cons] at h
        rcases h with h | h
        · exact Or.inl (by simp [List.mem_cons, h])
        · rcases ih h with h1 | h1
          · exact Or.inl (List.mem_cons_of_mem _ h1)
          · exact Or.inr h1

theorem registerList_mem {key : String} :
    ∀ (as : List String) (idx : List (String × String)) (p : String × String),
      p ∈ as.foldl (fun acc a => mapSet acc (normalizeKey a) key) idx →
      p ∈ idx ∨ (p.2 = key ∧ p.1 ∈ as.map normalizeKey) := by
  intro as
  induction as with
  | nil => intro idx p h; exact Or.inl h
  | cons b rest ih =>
      intro idx p h
      rcases ih _ p h with h1 | h1
      · rcases mem_of_mem_mapSet h1 with h2 | h2
        · exact Or.inl h2
        · refine Or.inr ⟨by rw [h2], by rw [h2]; simp⟩
      · exact Or.inr ⟨h1.1, by simp [h1.2]⟩

theorem registerList_nodup {key : String} :
    ∀ (as : List String) (idx : List (String × String)),
      NodupKeys idx →
      NodupKeys (as.foldl (fun acc a => mapSet acc (normalizeKey a) key) idx) := by
  intro as
  induction as with
  | nil => intro idx h; exact h
  | cons b rest ih =>
      intro idx h
      exact ih _ (nodupKeys_set _ h)

theorem removeAliasStep_sublist (key : String) (idx : List (String × String))
    (a : String) : (removeAliasStep key idx a).Sublist idx := by
  unfold removeAliasStep
  rcases hm : mapGet idx (normalizeKey a) with _ | mapped
  · simp only [hm]
    exact List.Sublist.refl _
  · simp only [hm]
    by_cases hk : (mapped == key) = true
    · rw [if_pos hk]
      exact mapDelete_sublist idx (normalizeKey a)
    · rw [if_neg hk]

theorem removeAliasIndex_sublist (e : CacheEntry) (key : String)
    (idx : List (String × String)) :
    (removeAliasIndex e key idx).Sublist idx := by
  unfold removeAliasIndex
  generalize e.aliases.getD [] = as
  induction as generalizing idx with
  | nil => exact List.Sublist.refl _
  | cons a rest ih =>
      exact (ih (removeAliasStep key idx a)).trans
        (removeAliasStep_sublist key idx a)

theorem removeAliasStep_not_key {key x : String}
    {idx : List (String × String)} (a : String)
    (h : mapGet idx x ≠ some key) :
    mapGet (removeAliasStep key idx a) x ≠ some key := by
  unfold removeAliasStep
  rcases hm : mapGet idx (normalizeKey a) with _ | mapped
  · simp only [hm]
    exact h
  · simp only [hm]
    by_cases hk : (mapped == key) = true
    · rw [if_pos hk]
      by_cases hx : x = normalizeKey a
      · rw [hx, mapGet_delete_self]
        intro hc; cases hc
      · rw [mapGet_delete_ne _ hx]
        exact h
    · rw [if_neg hk]
      exact h

theorem removeAliasStep_clears {key : String} {idx : List (String × String)}
    (a : String) :
    mapGet (removeAliasStep key idx a) (normalizeKey a) ≠ some key := by
  unfold removeAliasStep
  rcases hm : mapGet idx (normalizeKey a) with _ | mapped
  · simp only [hm]
    intro hc; cases hc
  · simp only [hm]
    by_cases hk : (mapped == key) = true
    · rw [if_pos hk, mapGet_delete_self]
      intro hc; cases hc
    · rw [if_neg hk, hm]
      intro hc
      injection hc with hc2
      exact absurd (by simp [hc2]) hk

theorem removeAliasFold_not_key {key x : String} :
    ∀ (as : List String) (idx : List (String × String)),
      mapGet idx x ≠ some key →
      mapGet (as.foldl (removeAliasStep key) idx) x ≠ some key := by
  intro as
  induction as with
  | nil => intro idx h; exact h
  | cons a rest ih =>
      intro idx h
      exact ih _ (removeAliasStep_not_key a h)

theorem removeAliasFold_clears {key : String} :
    ∀ (as : List String) (idx : List (String × String)) (a : String),
      a ∈ as →
      mapGet (as.foldl (removeAliasStep key) idx) (normalizeKey a)
        ≠ some key := by
  intro as
  induction as with
  | nil => intro idx a ha; simp at ha
  | cons b rest ih =>
      intro idx a ha
      rcases List.mem_cons.mp ha with h1 | h1
      · subst h1
        exact removeAliasFold_not_key rest _ (removeAliasStep_clears a)
      · exact ih _ a h1

theorem removeAliasIndex_clears {key : String} {e : CacheEntry}
    {idx : List (String × String)} {x : String}
    (hx : x ∈ (e.aliases.getD []).map normalizeKey) :
    mapGet (removeAliasIndex e key idx) x ≠ some key := by
  rcases List.mem_map.mp hx with ⟨a, ha, hax⟩
  rw [← hax]
  exact removeAliasFold_clears _ idx a ha

theorem removeEntry_preserves {k : String} {s : StoreState}
    (hnd : NodupKeys s.entries) (hna : NodupKeys s.aliasIndex)
    (hg : AliasGood s) :
    NodupKeys (removeEntry k s).entries ∧
      NodupKeys (removeEntry k s).aliasIndex ∧ AliasGood (removeEntry k s) := by
  refine ⟨nodupKeys_of_sublist (removeEntry_entries_sublist k s) hnd, ?_, ?_⟩
  · unfold removeEntry
    rcases he : mapGet s.entries k with _ | e
    · exact hna
    · exact nodupKeys_of_sublist (removeAliasIndex_sublist e k s.aliasIndex) hna
  · unfold removeEntry
    rcases he : mapGet s.entries k with _ | e
    · exact hg
    · intro p hp
      have hpidx : p ∈ s.aliasIndex :=
        (removeAliasIndex_sublist e k s.aliasIndex).subset hp
      rcases hg p hpidx with ⟨e2, hge2, hmem2⟩
      by_cases hpk : p.2 = k
      · exfalso
        have he2 : e2 = e := by
          rw [hpk, he] at hge2
          injection hge2 with hv
          exact hv.symm
        have hnk : NodupKeys (removeAliasIndex e k s.aliasIndex) :=
          nodupKeys_of_sublist (removeAliasIndex_sublist e k s.aliasIndex) hna
        have hgetp : mapGet (removeAliasIndex e k s.aliasIndex) p.1
            = some p.2 := mapGet_eq_some_of_mem hnk (by
              rw [show (p.1, p.2) = p from rfl]; exact hp)
        rw [hpk] at hgetp
        exact removeAliasIndex_clears (he2 ▸ hmem2) hgetp
      · refine ⟨e2, ?_, hmem2⟩
        show mapGet (mapDelete s.entries k) p.2 = some e2
        rw [mapGet_delete_ne _ hpk]
        exact hge2

theorem pruneLoop_preserves (now : Nat) :
    ∀ (l : List (String × CacheEntry)) (s : StoreState),
      NodupKeys s.entries → NodupKeys s.aliasIndex → AliasGood s →
      NodupKeys (pruneLoop now l s).entries ∧
        NodupKeys (pruneLoop now l s).aliasIndex ∧
        AliasGood (pruneLoop now l s) := by
  intro l
  induction l with
  | nil => intro s h1 h2 h3; exact ⟨h1, h2, h3⟩
  | cons p rest ih =>
      intro s h1 h2 h3
      obtain ⟨k, e⟩ := p
      by_cases hex : expiredAt now e = true
      · have step : pruneLoop now ((k, e) :: rest) s =
            pruneLoop now rest (removeEntry k s) := by
          simp [pruneLoop, hex]
        rw [step]
        obtain ⟨g1, g2, g3⟩ := @removeEntry_preserves k _ h1 h2 h3
        exact ih _ g1 g2 g3
      · have step : pruneLoop now ((k, e) :: rest) s = pruneLoop now rest s := by
          simp [pruneLoop, hex]
        rw [step]
        exact ih _ h1 h2 h3

theorem pruneExpired_preserves {now : Nat} {s : StoreState}
    (h1 : NodupKeys s.entries) (h2 : NodupKeys s.aliasIndex)
    (h3 : AliasGood s) :
    NodupKeys (pruneExpired now s).entries ∧
      NodupKeys (pruneExpired now s).aliasIndex ∧
      AliasGood (pruneExpired now s) :=
  pruneLoop_preserves now s.entries s h1 h2 h3

theorem evictLoop_preserves :
    ∀ (l : List (String × CacheEntry)) (s : StoreState),
      NodupKeys s.entries → NodupKeys s.aliasIndex → AliasGood s →
      NodupKeys (evictLoop l s).entries ∧
        NodupKeys (evictLoop l s).aliasIndex ∧ AliasGood (evictLoop l s) := by
  intro l
  induction l with
  | nil => intro s h1 h2 h3; exact ⟨h1, h2, h3⟩
  | cons p rest ih =>
      intro s h1 h2 h3
      obtain ⟨k, e⟩ := p
      by_cases h : s.entries.length ≤ CACHE_MAX_ENTRIES
      · have hstep : evictLoop ((k, e) :: rest) s = s := by
          show (if s.entries.length ≤ CACHE_MAX_ENTRIES then s
            else evictLoop rest (removeEntry k s)) = s
          rw [if_pos h]
        rw [hstep]
        exact ⟨h1, h2, h3⟩
      · have hstep : evictLoop ((k, e) :: rest) s
            = evictLoop rest (removeEntry k s) := by
          show (if s.entries.length ≤ CACHE_MAX_ENTRIES then s
            else evictLoop rest (removeEntry k s)) = _
          rw [if_neg h]
        rw [hstep]
        obtain ⟨g1, g2, g3⟩ := @removeEntry_preserves k _ h1 h2 h3
        exact ih _ g1 g2 g3

theorem enforceCapacity_preserves {s : StoreState}
    (h1 : NodupKeys s.entries) (h2 : NodupKeys s.aliasIndex)
    (h3 : AliasGood s) :
    NodupKeys (enforceCapacity s).entries ∧
      NodupKeys (enforceCapacity s).aliasIndex ∧
      AliasGood (enforceCapacity s) := by
  unfold enforceCapacity
  by_cases h : s.entries.length ≤ CACHE_MAX_ENTRIES
  · rw [if_pos h]
    exact ⟨h1, h2, h3⟩
  · rw [if_neg h]
    exact evictLoop_preserves _ s h1 h2 h3

theorem upsertPlaced_aliasIndex_none {now : Nat} {input : CacheEntryInput}
    {s : StoreState}
    (he : mapGet (pruneExpired now s).entries (normalizeKey input.searchTerm)
      = none) :
    (upsertPlaced now input s).aliasIndex =
      registerAliasIndex (mkEntry input now) (normalizeKey input.searchTerm)
        (pruneExpired now s).aliasIndex := by
  unfold upsertPlaced
  simp only [he]

theorem upsertPlaced_aliasIndex_some {now : Nat} {input : CacheEntryInput}
    {s : StoreState} {existing : CacheEntry}
    (he : mapGet (pruneExpired now s).entries (normalizeKey input.searchTerm)
      = some existing) :
    (upsertPlaced now input s).aliasIndex =
      registerAliasIndex (mkEntry input now) (normalizeKey input.searchTerm)
        (removeAliasIndex existing (normalizeKey input.searchTerm)
          (pruneExpired now s).aliasIndex) := by
  unfold upsertPlaced
  simp only [he]

theorem upsertPlaced_preserves {now : Nat} {input : CacheEntryInput}
    {s : StoreState}
    (h1 : NodupKeys s.entries) (h2 : NodupKeys s.aliasIndex)
    (h3 : AliasGood s) :
    NodupKeys (upsertPlaced now input s).entries ∧
      NodupKeys (upsertPlaced now input s).aliasIndex ∧
      AliasGood (upsertPlaced now input s) := by
  obtain ⟨p1, p2, p3⟩ := @pruneExpired_preserves now _ h1 h2 h3
  rcases he : mapGet (pruneExpired now s).entries
      (normalizeKey input.searchTerm) with _ | existing
  -- the index `upsert` registers into, per case
  case' none =>
    have hidx := @upsertPlaced_aliasIndex_none _ input _ he
    have hsub : ((pruneExpired now s).aliasIndex).Sublist
        (pruneExpired now s).aliasIndex := List.Sublist.refl _
    have hnd2 : NodupKeys (pruneExpired now s).aliasIndex := p2
    have hfree : ∀ x : String,
        (x, normalizeKey input.searchTerm) ∈ (pruneExpired now s).aliasIndex
          → False := by
      intro x hx
      rcases p3 (x, normalizeKey input.searchTerm) hx with ⟨e2, hge2, _⟩
      rw [he] at hge2
      cases hge2
  case' some =>
    have hidx := @upsertPlaced_aliasIndex_some _ input _ _ he
    have hsub : (removeAliasIndex existing (normalizeKey input.searchTerm)
        (pruneExpired now s).aliasIndex).Sublist
          (pruneExpired now s).aliasIndex := removeAliasIndex_sublist _ _ _
    have hnd2 : NodupKeys (removeAliasIndex existing
        (normalizeKey input.searchTerm) (pruneExpired now s).aliasIndex) :=
      nodupKeys_of_sublist hsub p2
    have hfree : ∀ x : String,
        (x, normalizeKey input.searchTerm) ∈ removeAliasIndex existing
          (normalizeKey input.searchTerm) (pruneExpired now s).aliasIndex
          → False := by
      intro x hx
      rcases p3 (x, normalizeKey input.searchTerm) (hsub.subset hx)
        with ⟨e2, hge2, hmem2⟩
      rw [he] at hge2
      have he2 : e2 = existing := by
        injection hge2 with hv
        exact hv.symm
      exact removeAliasIndex_clears (he2 ▸ hmem2)
        (mapGet_eq_some_of_mem hnd2 hx)
  all_goals
    refine ⟨upsertPlaced_nodup h1, ?_, ?_⟩
  case' none.refine_1 =>
    rw [hidx]
  case' some.refine_1 =>
    rw [hidx]
  all_goals try exact registerList_nodup _ _ hnd2
  all_goals
    intro p hp
    rw [upsertPlaced_entries]
    rw [hidx] at hp
    rcases registerList_mem _ _ _ hp with hold | hnew
    · have hpk : p.2 ≠ normalizeKey input.searchTerm := by
        intro hpk
        have hpe : (p.1, normalizeKey input.searchTerm) = p := by
          rw [← hpk]
        exact hfree p.1 (by rw [hpe]; exact hold)
      rcases p3 p (hsub.subset hold) with ⟨e2, hge2, hmem2⟩
      refine ⟨e2, ?_, hmem2⟩
      rw [mapGet_set_ne _ _ hpk]
      exact hge2
    · refine ⟨mkEntry input now, ?_, ?_⟩
      · rw [hnew.1, mapGet_set_self]
      · exact hnew.2

theorem upsert_preserves_inv {now : Nat} {input : CacheEntryInput}
    {s : StoreState} (h : StoreInv s) : StoreInv (upsert now input s).2 := by
  obtain ⟨h1, h2, hcap, h3⟩ := h
  obtain ⟨g1, g2, g3⟩ :=
    @upsertPlaced_preserves now input _ h1 h2 h3
  have hec := enforceCapacity_preserves g1 g2 g3
  refine ⟨hec.1, hec.2.1, ?_, hec.2.2⟩
  show (enforceCapacity (upsertPlaced now input s)).entries.length
    ≤ CACHE_MAX_ENTRIES
  by_cases hlen : (upsertPlaced now input s).entries.length ≤ CACHE_MAX_ENTRIES
  · rw [enforceCapacity_of_le hlen]
    exact hlen
  · have hlen51 : (upsertPlaced now input s).entries.length
        = CACHE_MAX_ENTRIES + 1 := by
      have := @upsertPlaced_len_le now input _ hcap
      omega
    obtain ⟨p, _, _, heq, hrlen⟩ := enforceCapacity_eq_of_len g1 hlen51
    rw [heq]
    exact le_of_eq hrlen

theorem get_preserves_inv {now : Nat} {t : String} {s : StoreState}
    (h : StoreInv s) : StoreInv (get now t s).2 := by
  obtain ⟨h1, h2, hcap, h3⟩ := h
  obtain ⟨p1, p2, p3⟩ := @pruneExpired_preserves now _ h1 h2 h3
  have hplen : (pruneExpired now s).entries.length ≤ CACHE_MAX_ENTRIES :=
    le_trans (pruneExpired_entries_sublist now s).length_le hcap
  rw [get_eq]
  rcases hr : resolveKey t (pruneExpired now s) with _ | key
  · simp only [hr]
    exact ⟨p1, p2, hplen, p3⟩
  · simp only [hr]
    rcases hm : mapGet (pruneExpired now s).entries key with _ | e
    · simp only [hm]
      exact ⟨p1, p2, hplen, p3⟩
    · simp only [hm]
      refine ⟨nodupKeys_set _ p1, p2, ?_, ?_⟩
      · show (mapSet (pruneExpired now s).entries key
          { e with lastAccessedAt := now }).length ≤ CACHE_MAX_ENTRIES
        rw [length_mapSet_of_has _ (by rw [mapHas_eq_isSome, hm]; rfl)]
        exact hplen
      · intro p hp
        rcases p3 p hp with ⟨e2, hge2, hmem2⟩
        by_cases hpk : p.2 = key
        · have he2 : e2 = e := by
            rw [hpk, hm] at hge2
            injection hge2 with hv
            exact hv.symm
          refine ⟨{ e with lastAccessedAt := now }, ?_, ?_⟩
          · show mapGet (mapSet (pruneExpired now s).entries key
              { e with lastAccessedAt := now }) p.2 = _
            rw [hpk, mapGet_set_self]
          · rw [he2] at hmem2
            exact hmem2
        · refine ⟨e2, ?_, hmem2⟩
          show mapGet (mapSet (pruneExpired now s).entries key
            { e with lastAccessedAt := now }) p.2 = some e2
          rw [mapGet_set_ne _ _ hpk]
          exact hge2

theorem snapshot_preserves_inv {now limit : Nat} {kf : KindFilter}
    {s : StoreState} (h : StoreInv s) : StoreInv (getSnapshot now limit kf s).2 := by
  obtain ⟨h1, h2, hcap, h3⟩ := h
  obtain ⟨p1, p2, p3⟩ := @pruneExpired_preserves now _ h1 h2 h3
  rw [getSnapshot_state]
  exact ⟨p1, p2,
    le_trans (pruneExpired_entries_sublist now s).length_le hcap, p3⟩

/-- Every state reachable through the public operations satisfies the
store invariant. -/
theorem storeInv_of_reachable {s : StoreState} (h : Reachable s) :
    StoreInv s := by
  induction h with
  | empty =>
      refine ⟨?_, ?_, ?_, ?_⟩
      · simp [emptyStore, NodupKeys]
      · simp [emptyStore, NodupKeys]
      · simp [emptyStore, CACHE_MAX_ENTRIES]
      · intro p hp
        simp [emptyStore] at hp
  | upsertStep now input hr ih => exact upsert_preserves_inv ih
  | getStep now t hr ih => exact get_preserves_inv ih
  | snapshotStep now limit kf hr ih => exact snapshot_preserves_inv ih

end Store

namespace Store

/-! ### Concrete records used to instantiate theorems -/

/-- A concrete context7 input (the spec's running example). -/
def reactInput : CacheEntryInput :=
  { searchTerm := "react"
    aliases := some ["ReactJS"]
    sourceType := .official
    resolvedAt := "2025-09-27T12:34:56.000Z"
    payload := .context7 "/facebook/react" (some 9) (some 100) }

/-- A second concrete context7 input whose alias collides with another
entry's canonical key. -/
def reactAliasVueInput : CacheEntryInput :=
  { searchTerm := "react"
    aliases := some ["Vue"]
    sourceType := .official
    resolvedAt := "2025-09-27T12:34:56.000Z"
    payload := .context7 "/facebook/react" none none }

/-- A concrete context7 input for a different library. -/
def vueInput : CacheEntryInput :=
  { searchTerm := "vue"
    aliases := none
    sourceType := .official
    resolvedAt := "2025-09-27T12:34:56.000Z"
    payload := .context7 "/vuejs/vue" none none }

/-- A concrete deepwiki input. -/
def deepwikiInput : CacheEntryInput :=
  { searchTerm := "lean4"
    aliases := some ["lean"]
    sourceType := .mirror
    resolvedAt := "2025-09-27T12:34:56.000Z"
    payload := .deepwiki "leanprover/lean4" }

/-- C10: in `LibraryCacheStore.get` a direct canonical-key match takes
precedence over the alias index.  If a live entry `e` is stored under
the canonical key `normalizeKey t`, `get` returns `e` (with
`lastAccessedAt` refreshed) no matter what the alias index maps
`normalizeKey t` to; `resolveKey` returns the direct key whenever one
exists and reads the alias index exactly when no entry's canonical key
equals the normalized term. -/
theorem direct_key_precedence_over_alias
    (s : StoreState) (now : Nat) (t : String) (e : CacheEntry)
    (hnd : NodupKeys s.entries)
    (hget : mapGet s.entries (normalizeKey t) = some e)
    (hlive : expiredAt now e = false) :
    (get now t s).1 = some { e with lastAccessedAt := now } ∧
    (∀ s2 : StoreState, mapHas s2.entries (normalizeKey t) = true →
      resolveKey t s2 = some (normalizeKey t)) ∧
    (∀ s2 : StoreState, mapHas s2.entries (normalizeKey t) = false →
      resolveKey t s2 = mapGet s2.aliasIndex (normalizeKey t)) := by
  refine ⟨?_, ?_, ?_⟩
  · rw [get_hit hnd hget hlive]
  · intro s2 h
    unfold resolveKey
    rw [if_pos h]
  · intro s2 h
    unfold resolveKey
    rw [if_neg (by simp [h])]

/-- Witness for C10: a store holding entry `vue` whose alias index
maps the string `vue` to the other key `react`; `get " VUE "` still
returns the `vue` entry. -/
theorem direct_key_precedence_over_alias_witness :
    (get 100 " VUE "
      ⟨[("vue", mkEntry vueInput 100)], [("vue", "react")]⟩).1
      = some { mkEntry vueInput 100 with lastAccessedAt := 100 } :=
  (direct_key_precedence_over_alias
    ⟨[("vue", mkEntry vueInput 100)], [("vue", "react")]⟩ 100 " VUE "
    (mkEntry vueInput 100) (by decide) (by decide) (by decide)).1

/-- C4: in the TTL-bearing variant (`LibraryCacheStore`) an entry
whose `updatedAt` lies more than `CACHE_TTL_MS` in the past is never
returned: after the next `get`, `getSnapshot` or `upsert` at such a
`now` the entry is gone from the resulting state (so any entry count
derived from it excludes the entry; the class exposes no separate
`size()` method), `get` never returns an expired record, every
snapshot record comes from a live entry, and the entry count strictly
drops — all without an explicit removal call. -/
theorem ttl_expired_entry_absent
    (s : StoreState) (now limit : Nat) (kf : KindFilter) (t : String)
    (k : String) (e : CacheEntry) (input : CacheEntryInput)
    (hnd : NodupKeys s.entries)
    (hk : mapGet s.entries k = some e)
    (hexp : CACHE_TTL_MS < now - e.updatedAt) :
    mapGet ((get now t s).2).entries k = none ∧
    (∀ r, (get now t s).1 = some r → ¬ CACHE_TTL_MS < now - r.updatedAt) ∧
    mapGet ((getSnapshot now limit kf s).2).entries k = none ∧
    (∀ r ∈ snapshotSlice now limit kf s, expiredAt now r = false) ∧
    (k, e) ∉ ((upsert now input s).2).entries ∧
    ((get now t s).2).entries.length < s.entries.length := by
  have hprune : mapGet (pruneExpired now s).entries k = none := by
    rw [pruneExpired_get now hnd, hk]
    simp [expiredAt, hexp]
  have hnotmem : (k, e) ∉ (pruneExpired now s).entries := by
    intro hmem
    rw [mapGet_eq_some_of_mem (pruneExpired_nodup hnd) hmem] at hprune
    cases hprune
  refine ⟨get_state_none now t hprune, get_result_live hnd, ?_, ?_, ?_, ?_⟩
  · rw [getSnapshot_state]
    exact hprune
  · exact snapshotSlice_live hnd
  · intro hmem
    have hplnd := @upsertPlaced_nodup now input _ hnd
    have hsub : ((upsert now input s).2).entries.Sublist
        (upsertPlaced now input s).entries :=
      enforceCapacity_entries_sublist _
    have hmem2 : (k, e) ∈ (upsertPlaced now input s).entries := hsub.subset hmem
    rw [upsertPlaced_entries] at hmem2 hplnd
    by_cases hkey : k = normalizeKey input.searchTerm
    · have hsome := mapGet_eq_some_of_mem hplnd hmem2
      rw [hkey, mapGet_set_self] at hsome
      have he : e = mkEntry input now := by
        injection hsome with hv
        exact hv.symm
      rw [he] at hexp
      simp [mkEntry, Nat.sub_self] at hexp
    · have hsome := mapGet_eq_some_of_mem hplnd hmem2
      rw [mapGet_set_ne _ _ hkey, hprune] at hsome
      cases hsome
  · have hstlen : ((get now t s).2).entries.length
        = (pruneExpired now s).entries.length := by
      rw [get_eq]
      rcases h2 : resolveKey t (pruneExpired now s) with _ | key
      · simp only [h2]
      · simp only [h2]
        rcases h3 : mapGet (pruneExpired now s).entries key with _ | e2
        · simp only [h3]
        · simp only [h3]
          exact length_mapSet_of_has _ (by rw [mapHas_eq_isSome, h3]; rfl)
    have hle := (pruneExpired_entries_sublist now s).length_le
    have hne : (pruneExpired now s).entries ≠ s.entries := by
      intro heq
      rw [heq] at hnotmem
      exact hnotmem (mem_of_mapGet_eq_some hk)
    have hlt : (pruneExpired now s).entries.length < s.entries.length := by
      rcases Nat.lt_or_ge (pruneExpired now s).entries.length
          s.entries.length with h | h
      · exact h
      · exact absurd ((pruneExpired_entries_sublist now s).eq_of_length
          (Nat.le_antisymm hle h)) hne
    omega

/-- Witness for C4: an entry written at time 0 is gone from the state
`get` leaves behind at time `CACHE_TTL_MS + 1`. -/
theorem ttl_expired_entry_absent_witness :
    mapGet ((get (CACHE_TTL_MS + 1) "react"
      ⟨[("react", mkEntry reactInput 0)], [("reactjs", "react")]⟩).2).entries
      "react" = none :=
  (ttl_expired_entry_absent
    ⟨[("react", mkEntry reactInput 0)], [("reactjs", "react")]⟩
    (CACHE_TTL_MS + 1) 5 .all "react" "react" (mkEntry reactInput 0)
    vueInput (by decide) (by decide) (by decide)).1

/-- C7: at every state reachable through the public operations, every
alias-index binding maps to a canonical key currently present in the
entry store, and the bound alias is one of that entry's normalized
aliases — so whenever an entry is removed or replaced, its alias
bindings are cleaned up within the same operation. -/
theorem alias_index_integrity (s : StoreState) (p : String × String)
    (h : Reachable s) (hp : p ∈ s.aliasIndex) :
    mapHas s.entries p.2 = true ∧
      ∃ e, mapGet s.entries p.2 = some e ∧
        p.1 ∈ (e.aliases.getD []).map normalizeKey := by
  obtain ⟨_, _, _, hg⟩ := storeInv_of_reachable h
  rcases hg p hp with ⟨e, he, hm⟩
  exact ⟨by rw [mapHas_eq_isSome, he]; rfl, e, he, hm⟩

/-- Witness for C7: after one upsert from the empty store, the binding
the alias `ReactJS` received points at the live key `react`. -/
theorem alias_index_integrity_witness :
    mapHas ((upsert 100 reactInput emptyStore).2).entries "react" = true ∧
      ∃ e, mapGet ((upsert 100 reactInput emptyStore).2).entries "react"
          = some e ∧
        "reactjs" ∈ (e.aliases.getD []).map normalizeKey :=
  alias_index_integrity _ ("reactjs", "react")
    (Reachable.upsertStep 100 reactInput Reachable.empty) (by decide)

/-- A store filled to one entry over capacity, used to instantiate the
eviction characterization. -/
def bigEntry (i : Nat) : CacheEntry :=
  mkEntry
    { searchTerm := "k" ++ toString i
      aliases := none
      sourceType := .official
      resolvedAt := "2025-01-01T00:00:00Z"
      payload := .context7 ("id" ++ toString i) none none } i

/-- 51 distinct entries with increasing `lastAccessedAt`. -/
def bigState : StoreState :=
  ⟨(List.range (CACHE_MAX_ENTRIES + 1)).map
    (fun i => ("k" ++ toString i, bigEntry i)), []⟩

/-- Two live entries, the `vue` one strictly least recently accessed. -/
def protectState : StoreState :=
  ⟨[("vue", mkEntry vueInput 0), ("react", mkEntry reactInput 50)], []⟩

/-- C3: (i) every store state reachable through the public operations
holds at most `CACHE_MAX_ENTRIES` (50) entries; (ii) when an insert
has pushed the count to `CACHE_MAX_ENTRIES + 1`, `enforceCapacity`
removes exactly the entry with the oldest `lastAccessedAt`, ties
broken by insertion order (the `lastLex`-minimal index-tagged entry),
bringing the count back to the maximum; (iii) a `get` refresh protects
the accessed entry from the eviction triggered by the next `upsert`
whenever some other live entry is strictly older. -/
theorem capacity_bound_and_lru_eviction :
    (∀ s : StoreState, Reachable s → s.entries.length ≤ CACHE_MAX_ENTRIES) ∧
    (∀ s : StoreState, NodupKeys s.entries →
      s.entries.length = CACHE_MAX_ENTRIES + 1 →
      ∃ p, minTagged s.entries p ∧ p.2 ∈ s.entries ∧
        enforceCapacity s = removeEntry p.2.1 s ∧
        (removeEntry p.2.1 s).entries.length = CACHE_MAX_ENTRIES) ∧
    (∀ (s : StoreState) (now now2 : Nat) (t : String)
        (input : CacheEntryInput) (k k2 : String) (e e2 : CacheEntry),
      NodupKeys s.entries → s.entries.length ≤ CACHE_MAX_ENTRIES →
      (∀ p ∈ s.entries, p.2.lastAccessedAt ≤ now) → now ≤ now2 →
      normalizeKey t = k →
      mapGet s.entries k = some e → expiredAt now e = false →
      (k2, e2) ∈ s.entries → k2 ≠ k → e2.lastAccessedAt < now →
      expiredAt now e2 = false →
      expiredAt now2 { e with lastAccessedAt := now } = false →
      expiredAt now2 e2 = false →
      normalizeKey input.searchTerm ≠ k →
      mapGet ((upsert now2 input (get now t s).2).2).entries k
        = some { e with lastAccessedAt := now }) := by
  refine ⟨fun s h => (storeInv_of_reachable h).2.2.1,
    fun s hnd hlen => enforceCapacity_eq_of_len hnd hlen, ?_⟩
  intro s now now2 t input k k2 e e2 hnd hcap hts hnow ht hget hlive hmem2
    hk2 holder hlive2 hlive1b hlive2b hkey
  have hget2 : mapGet s.entries (normalizeKey t) = some e := by
    rw [ht]; exact hget
  have hhit := get_hit hnd hget2 hlive
  have hs1 : (get now t s).2 = { pruneExpired now s with entries :=
      (mapSet (pruneExpired now s).entries k
        { e with lastAccessedAt := now }) } := by
    rw [hhit, ht]
  have hprunend := @pruneExpired_nodup now _ hnd
  have hnd1 : NodupKeys ((get now t s).2).entries := by
    rw [hs1]; exact nodupKeys_set _ hprunend
  have hpgk : mapGet (pruneExpired now s).entries k = some e := by
    rw [pruneExpired_get now hnd, hget]
    simp [hlive]
  have hcap1 : ((get now t s).2).entries.length ≤ CACHE_MAX_ENTRIES := by
    rw [hs1]
    show (mapSet (pruneExpired now s).entries k
      { e with lastAccessedAt := now }).length ≤ CACHE_MAX_ENTRIES
    rw [length_mapSet_of_has _ (by rw [mapHas_eq_isSome, hpgk]; rfl)]
    exact le_trans (pruneExpired_entries_sublist now s).length_le hcap
  have hts1 : ∀ p ∈ ((get now t s).2).entries, p.2.lastAccessedAt ≤ now2 := by
    intro p hp
    rw [hs1] at hp
    rcases mem_of_mem_mapSet hp with h | h
    · exact le_trans (hts p ((pruneExpired_entries_sublist now s).subset h))
        hnow
    · rw [h]
      simpa using hnow
  have hs1k : mapGet ((get now t s).2).entries k
      = some { e with lastAccessedAt := now } := by
    rw [hs1]; exact mapGet_set_self _ _ _
  have hs1k2 : mapGet ((get now t s).2).entries k2 = some e2 := by
    rw [hs1]
    show mapGet (mapSet (pruneExpired now s).entries k
      { e with lastAccessedAt := now }) k2 = some e2
    rw [mapGet_set_ne _ _ hk2, pruneExpired_get now hnd,
      mapGet_eq_some_of_mem hnd hmem2]
    simp [hlive2]
  have hp2k : mapGet (pruneExpired now2 (get now t s).2).entries k
      = some { e with lastAccessedAt := now } := by
    rw [pruneExpired_get now2 hnd1, hs1k]
    simp [hlive1b]
  have hp2k2 : mapGet (pruneExpired now2 (get now t s).2).entries k2
      = some e2 := by
    rw [pruneExpired_get now2 hnd1, hs1k2]
    simp [hlive2b]
  rcases @upsert_state_eq _ _ input hnd1 hcap1 hts1
    with ⟨heq, _⟩ | ⟨hlen51, p, hmin, hpkey, heq, _⟩
  · rw [heq, upsertPlaced_entries, mapGet_set_ne _ _ (Ne.symm hkey)]
    exact hp2k
  · rw [heq, removeEntry_get]
    have hplmem_k : (k, { e with lastAccessedAt := now })
        ∈ (upsertPlaced now2 input (get now t s).2).entries := by
      rw [upsertPlaced_entries]
      exact mem_mapSet_of_ne (mem_of_mapGet_eq_some hp2k) (Ne.symm hkey)
    have hk2key : k2 ≠ normalizeKey input.searchTerm := by
      intro hek
      have hhas : mapHas (pruneExpired now2 (get now t s).2).entries
          (normalizeKey input.searchTerm) = true := by
        rw [← hek, mapHas_eq_isSome, hp2k2]
        rfl
      have hsetlen := length_mapSet_of_has (mkEntry input now2) hhas
      rw [upsertPlaced_entries] at hlen51
      have hle : (pruneExpired now2 (get now t s).2).entries.length
          ≤ CACHE_MAX_ENTRIES :=
        le_trans (pruneExpired_entries_sublist now2 _).length_le hcap1
      omega
    have hplmem_k2 : (k2, e2)
        ∈ (upsertPlaced now2 input (get now t s).2).entries := by
      rw [upsertPlaced_entries]
      exact mem_mapSet_of_ne (mem_of_mapGet_eq_some hp2k2) hk2key
    have hplnd : NodupKeys (upsertPlaced now2 input (get now t s).2).entries :=
      upsertPlaced_nodup hnd1
    have hne := minTagged_key_ne hplnd hmin hplmem_k hplmem_k2 (by
      show e2.lastAccessedAt
        < ({ e with lastAccessedAt := now } : CacheEntry).lastAccessedAt
      simpa using holder)
    rw [if_neg (fun he => hne he.symm), upsertPlaced_entries,
      mapGet_set_ne _ _ (Ne.symm hkey)]
    exact hp2k

/-- Witness for C3: the empty store respects the bound; a concrete
51-entry store evicts its `lastLex` minimum; the freshly refreshed
`react` entry survives the upsert that follows while `vue` (older) is
present. -/
theorem capacity_bound_and_lru_eviction_witness :
    emptyStore.entries.length ≤ CACHE_MAX_ENTRIES ∧
    (∃ p, minTagged bigState.entries p ∧ p.2 ∈ bigState.entries ∧
      enforceCapacity bigState = removeEntry p.2.1 bigState ∧
      (removeEntry p.2.1 bigState).entries.length = CACHE_MAX_ENTRIES) ∧
    mapGet ((upsert 100 deepwikiInput
        (get 100 "React" protectState).2).2).entries "react"
      = some { mkEntry reactInput 50 with lastAccessedAt := 100 } :=
  ⟨capacity_bound_and_lru_eviction.1 emptyStore Reachable.empty,
   capacity_bound_and_lru_eviction.2.1 bigState (by decide) (by decide),
   capacity_bound_and_lru_eviction.2.2 protectState 100 100 "React"
     deepwikiInput "react" "vue" (mkEntry reactInput 50) (mkEntry vueInput 0)
     (by decide) (by decide) (by decide) (by decide) (by decide) (by decide)
     (by decide) (by decide) (by decide) (by decide) (by decide) (by decide)
     (by decide) (by decide)⟩

theorem proj_count (l : List CacheEntry) :
    (l.filterMap projectLibrary).length +
      (l.filterMap projectRepository).length = l.length := by
  induction l with
  | nil => simp
  | cons e rest ih =>
      rcases hp : e.payload with ⟨lid, ts, sc⟩ | repo
      · have h1 : projectLibrary e = some
            { searchTerm := e.searchTerm, aliases := e.aliases
              sourceType := e.sourceType, resolvedAt := e.resolvedAt
              libraryId := lid, trustScore := ts, snippetCount := sc } := by
          unfold projectLibrary
          rw [hp]
        have h2 : projectRepository e = none := by
          unfold projectRepository
          rw [hp]
        simp only [List.filterMap_cons, h1, h2, List.length_cons]
        omega
      · have h1 : projectLibrary e = none := by
          unfold projectLibrary
          rw [hp]
        have h2 : projectRepository e = some
            { searchTerm := e.searchTerm, aliases := e.aliases
              sourceType := e.sourceType, resolvedAt := e.resolvedAt
              repository := repo } := by
          unfold projectRepository
          rw [hp]
        simp only [List.filterMap_cons, h1, h2, List.length_cons]
        omega

theorem sortByUpdatedDesc_sorted (l : List CacheEntry) :
    (sortByUpdatedDesc l).Pairwise (fun a b => b.updatedAt ≤ a.updatedAt) := by
  unfold sortByUpdatedDesc
  have hs := List.sorted_insertionSort updatedLex l.enum
  exact List.Pairwise.map _ (fun a b h => by
    unfold updatedLex at h
    omega) hs

theorem snapshotSlice_sorted (now limit : Nat) (kf : KindFilter)
    (s : StoreState) :
    (snapshotSlice now limit kf s).Pairwise
      (fun a b => b.updatedAt ≤ a.updatedAt) := by
  unfold snapshotSlice
  exact List.Pairwise.sublist (List.take_sublist _ _)
    (sortByUpdatedDesc_sorted _)

theorem snapshotSlice_length_le (now limit : Nat) (kf : KindFilter)
    (s : StoreState) : (snapshotSlice now limit kf s).length ≤ limit := by
  unfold snapshotSlice
  exact List.length_take_le _ _

/-- C5: `getSnapshot(limit, kind)` purges expired entries, filters by
variant, returns at most `limit` records in total, sorted by
`updatedAt` descending, and each returned record is the projection of
a stored live entry with `kind`, `lastAccessedAt` and `updatedAt`
stripped (the projection record types carry no such fields). -/
theorem getSnapshot_spec (s : StoreState) (now limit : Nat) (kf : KindFilter)
    (hnd : NodupKeys s.entries) :
    (getSnapshot now limit kf s).1.libraries.length +
      (getSnapshot now limit kf s).1.repositories.length ≤ limit ∧
    (getSnapshot now limit kf s).1.libraries
      = (snapshotSlice now limit kf s).filterMap projectLibrary ∧
    (getSnapshot now limit kf s).1.repositories
      = (snapshotSlice now limit kf s).filterMap projectRepository ∧
    (snapshotSlice now limit kf s).Pairwise
      (fun a b => b.updatedAt ≤ a.updatedAt) ∧
    (∀ r ∈ snapshotSlice now limit kf s, expiredAt now r = false ∧
      entryKindMatches kf r = true ∧
      ∃ p ∈ (pruneExpired now s).entries, p.2 = r) ∧
    (kf = KindFilter.context7 →
      (getSnapshot now limit kf s).1.repositories = []) ∧
    (kf = KindFilter.deepwiki →
      (getSnapshot now limit kf s).1.libraries = []) := by
  have hlib : (getSnapshot now limit kf s).1.libraries
      = (snapshotSlice now limit kf s).filterMap projectLibrary := rfl
  have hrep : (getSnapshot now limit kf s).1.repositories
      = (snapshotSlice now limit kf s).filterMap projectRepository := rfl
  refine ⟨?_, hlib, hrep, snapshotSlice_sorted now limit kf s, ?_, ?_, ?_⟩
  · rw [hlib, hrep, proj_count]
    exact snapshotSlice_length_le now limit kf s
  · intro r hr
    rcases mem_snapshotSlice hr with ⟨p, hp, hpr, hmatch⟩
    exact ⟨snapshotSlice_live hnd r hr, hmatch, p, hp, hpr⟩
  · intro hkf
    rw [hrep, List.filterMap_eq_nil_iff]
    intro r hr
    rcases mem_snapshotSlice hr with ⟨p, _, _, hmatch⟩
    rw [hkf] at hmatch
    unfold projectRepository
    rcases hpay : r.payload with _ | repo
    · rfl
    · unfold entryKindMatches at hmatch
      rw [hpay] at hmatch
      cases hmatch
  · intro hkf
    rw [hlib, List.filterMap_eq_nil_iff]
    intro r hr
    rcases mem_snapshotSlice hr with ⟨p, _, _, hmatch⟩
    rw [hkf] at hmatch
    unfold projectLibrary
    rcases hpay : r.payload with ⟨lid, ts, sc⟩ | _
    · unfold entryKindMatches at hmatch
      rw [hpay] at hmatch
      cases hmatch
    · rfl

/-- Witness for C5 on a concrete two-entry store with limit 1. -/
theorem getSnapshot_spec_witness :
    (getSnapshot 100 1 KindFilter.all protectState).1.libraries.length +
      (getSnapshot 100 1 KindFilter.all protectState).1.repositories.length
        ≤ 1 :=
  (getSnapshot_spec protectState 100 1 KindFilter.all (by decide)).1

end Store

namespace Repo

/-! ## The alias-repository variant
(`src/mastra/cache/library-cache-repository.ts` with the zod schemas
of `src/mastra/cache/schema.ts`). -/

/-- `DEFAULT_CACHE_MAX_ENTRIES` in library-cache-repository.ts. -/
def DEFAULT_CACHE_MAX_ENTRIES : Nat := 50

/-- Trim as a plain string function (`z.string().trim()`). -/
def trimString (s : String) : String :=
  ⟨trimChars s.data⟩

/-- JS `value.toLowerCase()` (ASCII case folding, kernel-reducible). -/
def lowerString (s : String) : String :=
  ⟨s.data.map Char.toLower⟩

/-- `Context7CacheEntry = z.output<typeof context7CacheEntrySchema>`. -/
structure Context7Entry where
  names : List String
  libraryId : String
  sourceType : SourceType
  trustScore : Option ℚ
  snippetCount : Option ℤ
  resolvedAt : String
deriving DecidableEq, Repr

/-- `Context7CacheEntryInput = z.input<typeof context7CacheEntrySchema>`:
the pre-validation payload (`resolvedAt` optional, defaulted). -/
structure Context7Input where
  names : List String
  libraryId : String
  sourceType : SourceType
  trustScore : Option ℚ
  snippetCount : Option ℤ
  resolvedAt : Option String
deriving DecidableEq, Repr

/-- `DeepWikiCacheEntry`. -/
structure DeepWikiEntry where
  names : List String
  repository : String
  sourceType : SourceType
  resolvedAt : String
deriving DecidableEq, Repr

/-- `DeepWikiCacheEntryInput`. -/
structure DeepWikiInput where
  names : List String
  repository : String
  sourceType : SourceType
  resolvedAt : Option String
deriving DecidableEq, Repr

/-- A zod validation failure (`ZodError` thrown by `schema.parse`);
the distinctions mirror the issues the two schemas can raise. -/
inductive ParseError
  | emptyName
  | noNames
  | emptyLibraryId
  | emptyRepository
  | trustScoreOutOfRange
  | snippetCountNegative
  | badResolvedAt
deriving DecidableEq, Repr

/-- The dedupe transform of `namesSchema`: drop names already seen
under case folding, preserving the original casing of the first
occurrence. -/
def dedupeNames (l : List String) : List String :=
  (l.foldl
    (fun (acc : List String × List String) v =>
      let key := lowerString v
      if acc.2.contains key then acc else (acc.1 ++ [v], acc.2 ++ [key]))
    ([], [])).1

/-- `namesSchema`: each element trimmed and non-empty, at least one
name, then deduplicated case-insensitively. -/
def parseNames (names : List String) : Except ParseError (List String) :=
  let trimmed := names.map trimString
  if trimmed.any (fun n => n.data.isEmpty) then .error .emptyName
  else if trimmed.isEmpty then .error .noNames
  else .ok (dedupeNames trimmed)

/-- Gregorian leap-year rule, as encoded in the zod v4 date regex. -/
def isLeapYear (y : Nat) : Bool :=
  y % 4 = 0 && (y % 100 ≠ 0 || y % 400 = 0)

/-- Day count of a month, as encoded in the zod v4 date regex. -/
def daysInMonth (y m : Nat) : Nat :=
  if m = 2 then (if isLeapYear y then 29 else 28)
  else if m = 4 || m = 6 || m = 9 || m = 11 then 30
  else 31

/-- Digit pair to a number (assumes both are digits). -/
def twoDigitVal (c1 c2 : Char) : Nat :=
  10 * (c1.toNat - 48) + (c2.toNat - 48)

/-- Continuation of the fractional seconds: more digits, then `Z`. -/
def fracRest : List Char → Bool
  | ['Z'] => true
  | c :: rest => c.isDigit && fracRest rest
  | [] => false

/-- The fractional seconds after the dot: one or more digits, then
`Z`. -/
def fracDigitsZ : List Char → Bool
  | c :: rest => c.isDigit && fracRest rest
  | [] => false

/-- After the minutes: either `Z`, or `:SS` with an optional `.fff`,
then `Z` (`[0-5]\d` seconds, no leap second). -/
def isoTail : List Char → Bool
  | ['Z'] => true
  | ':' :: s1 :: s2 :: rest =>
      s1.isDigit && s2.isDigit && decide (twoDigitVal s1 s2 ≤ 59) &&
        (match rest with
          | ['Z'] => true
          | '.' :: ds => fracDigitsZ ds
          | _ => false)
  | _ => false

/-- `z.iso.datetime()` of zod v4 with the default options: strict
`YYYY-MM-DDTHH:MM[:SS[.fff]]Z` shape with calendar-valid dates
(leap-year aware) and `Z` as the only accepted timezone. -/
def isIsoDatetime (str : String) : Bool :=
  match str.data with
  | y1 :: y2 :: y3 :: y4 :: '-' :: m1 :: m2 :: '-' :: d1 :: d2 :: 'T' ::
      h1 :: h2 :: ':' :: mi1 :: mi2 :: rest =>
      y1.isDigit && y2.isDigit && y3.isDigit && y4.isDigit &&
      m1.isDigit && m2.isDigit && d1.isDigit && d2.isDigit &&
      h1.isDigit && h2.isDigit && mi1.isDigit && mi2.isDigit &&
      (let y := 1000 * (y1.toNat - 48) + 100 * (y2.toNat - 48) +
        10 * (y3.toNat - 48) + (y4.toNat - 48)
       let m := twoDigitVal m1 m2
       let d := twoDigitVal d1 d2
       decide (1 ≤ m) && decide (m ≤ 12) && decide (1 ≤ d) &&
         decide (d ≤ daysInMonth y m) &&
         decide (twoDigitVal h1 h2 ≤ 23) && decide (twoDigitVal mi1 mi2 ≤ 59)) &&
      isoTail rest
  | _ => false

/-- `trustScore: z.number().min(0).max(10).optional()`. -/
def trustScoreOk : Option ℚ → Bool
  | none => true
  | some t => decide ((0 : ℚ) ≤ t) && decide (t ≤ (10 : ℚ))

/-- `snippetCount: z.number().int().min(0).optional()`. -/
def snippetCountOk : Option ℤ → Bool
  | none => true
  | some n => decide ((0 : ℤ) ≤ n)

/-- `resolvedAt: z.iso.datetime().default(now)` — validate only when
present. -/
def resolvedAtOk : Option String → Bool
  | none => true
  | some r => isIsoDatetime r

/-- The `.default(() => new Date().toISOString())` of `resolvedAt`. -/
def resolveResolvedAt (nowIso : String) : Option String → String
  | none => nowIso
  | some r => r

/-- `context7CacheEntrySchema.parse` (the checks in schema order;
`nowIso` is the ISO rendering of the current time used by the
default). -/
def parseContext7 (nowIso : String) (input : Context7Input) :
    Except ParseError Context7Entry :=
  match parseNames input.names with
  | .error e => .error e
  | .ok names =>
      if (trimString input.libraryId).data.isEmpty then .error .emptyLibraryId
      else if !trustScoreOk input.trustScore then .error .trustScoreOutOfRange
      else if !snippetCountOk input.snippetCount then
        .error .snippetCountNegative
      else if !resolvedAtOk input.resolvedAt then .error .badResolvedAt
      else .ok
        { names := names
          libraryId := trimString input.libraryId
          sourceType := input.sourceType
          trustScore := input.trustScore
          snippetCount := input.snippetCount
          resolvedAt := resolveResolvedAt nowIso input.resolvedAt }

/-- `deepWikiCacheEntrySchema.parse`. -/
def parseDeepWiki (nowIso : String) (input : DeepWikiInput) :
    Except ParseError DeepWikiEntry :=
  match parseNames input.names with
  | .error e => .error e
  | .ok names =>
      if (trimString input.repository).data.isEmpty then
        .error .emptyRepository
      else if !resolvedAtOk input.resolvedAt then .error .badResolvedAt
      else .ok
        { names := names
          repository := trimString input.repository
          sourceType := input.sourceType
          resolvedAt := resolveResolvedAt nowIso input.resolvedAt }

/-- The private fields `entries` and `order` of
`BaseCacheRepository`. -/
structure RepoState (α : Type) where
  entries : List (String × α)
  order : List String
deriving DecidableEq, Repr

/-- A fresh repository. -/
def emptyRepo : RepoState α := ⟨[], []⟩

/-- `BaseCacheRepository.size`. -/
def sizeRepo (s : RepoState α) : Nat :=
  s.entries.length

/-- `BaseCacheRepository.getAll` (the `cloneEntry` copies are value
copies in this embedding; the sharing structure is modelled
separately). -/
def getAll (s : RepoState α) : List α :=
  s.order.filterMap (fun k => mapGet s.entries k)

/-- `BaseCacheRepository.getByName`: walk `order`, return the first
entry one of whose stored names is *equal* to the lowercased trimmed
probe. -/
def getByName (namesOf : α → List String) (s : RepoState α)
    (name : String) : Option α :=
  (getAll s).find? (fun e => (namesOf e).contains (normalizeKey name))

/-- `BaseCacheRepository.resolveExistingKey`: the canonical key when
already stored, otherwise the first key in insertion order whose
entry `isSameResource`. -/
def resolveExistingKey (same : α → α → Bool) (s : RepoState α)
    (canonical : String) (entry : α) : Option String :=
  if mapHas s.entries canonical then some canonical
  else s.order.find? (fun k =>
    match mapGet s.entries k with
    | some existing => same existing entry
    | none => false)

/-- The `while` loop of `BaseCacheRepository.enforceCapacity`: shift
keys off the front of `order` (deleting their entries) until the
order length is within the maximum. -/
def enforceCapacityRepo (maxE : Nat) (s : RepoState α) : RepoState α :=
  let n := s.order.length - maxE
  { entries := (s.order.take n).foldl (fun m k => mapDelete m k) s.entries
    order := s.order.drop n }

/-- `BaseCacheRepository.upsert` after `parseInput` has succeeded:
identity reconciliation, re-keying, insertion, capacity
enforcement. -/
def upsertParsed (same : α → α → Bool) (namesOf : α → List String)
    (maxE : Nat) (parsed : α) (s : RepoState α) : α × RepoState α :=
  let canonical := (namesOf parsed).headD ""
  let existingKey := resolveExistingKey same s canonical parsed
  let s1 : RepoState α :=
    match existingKey with
    | some k =>
        if k ≠ canonical then
          { entries := mapDelete s.entries k, order := s.order.erase k }
        else s
    | none => s
  let hadCanonical := mapHas s1.entries canonical
  let s2 : RepoState α := { s1 with entries := mapSet s1.entries canonical parsed }
  let s3 :=
    if hadCanonical then s2
    else enforceCapacityRepo maxE { s2 with order := s2.order ++ [canonical] }
  (parsed, s3)

/-- `names` accessor of the context7 entry. -/
def c7names (e : Context7Entry) : List String :=
  e.names

/-- `Context7CacheRepository.isSameResource`: equal `libraryId`, or
the base rule — any shared name. -/
def c7same (existing candidate : Context7Entry) : Bool :=
  existing.libraryId == candidate.libraryId ||
    existing.names.any (fun n => candidate.names.contains n)

/-- `names` accessor of the deepwiki entry. -/
def dwnames (e : DeepWikiEntry) : List String :=
  e.names

/-- `DeepWikiCacheRepository.isSameResource`. -/
def dwsame (existing candidate : DeepWikiEntry) : Bool :=
  existing.repository == candidate.repository ||
    existing.names.any (fun n => candidate.names.contains n)

/-- `Context7CacheRepository.upsert`: `parseInput` runs first, so a
validation error propagates before any state is touched. -/
def upsertC7 (nowIso : String) (maxE : Nat) (input : Context7Input)
    (s : RepoState Context7Entry) :
    Except ParseError Context7Entry × RepoState Context7Entry :=
  match parseContext7 nowIso input with
  | .error e => (.error e, s)
  | .ok parsed =>
      let r := upsertParsed c7same c7names maxE parsed s
      (.ok r.1, r.2)

/-- `DeepWikiCacheRepository.upsert`. -/
def upsertDW (nowIso : String) (maxE : Nat) (input : DeepWikiInput)
    (s : RepoState DeepWikiEntry) :
    Except ParseError DeepWikiEntry × RepoState DeepWikiEntry :=
  match parseDeepWiki nowIso input with
  | .error e => (.error e, s)
  | .ok parsed =>
      let r := upsertParsed dwsame dwnames maxE parsed s
      (.ok r.1, r.2)

/-- `Context7CacheRepository.getByName`. -/
def getByNameC7 (s : RepoState Context7Entry) (name : String) :
    Option Context7Entry :=
  getByName c7names s name

/-! ### Validation -/

theorem parseContext7_ok_checks {nowIso : String} {input : Context7Input}
    {parsed : Context7Entry} (h : parseContext7 nowIso input = .ok parsed) :
    (input.names.map trimString).any (fun n => n.data.isEmpty) = false ∧
    input.names ≠ [] ∧
    (trimString input.libraryId).data.isEmpty = false ∧
    trustScoreOk input.trustScore = true ∧
    snippetCountOk input.snippetCount = true ∧
    resolvedAtOk input.resolvedAt = true := by
  simp only [parseContext7, parseNames] at h
  by_cases c1 : (input.names.map trimString).any (fun n => n.data.isEmpty)
    = true
  · simp [c1] at h
  by_cases c2 : (input.names.map trimString).isEmpty = true
  · simp [c1, c2] at h
  by_cases c3 : (trimString input.libraryId).data.isEmpty = true
  · simp [c1, c2, c3] at h
  by_cases c4 : trustScoreOk input.trustScore = true
  case neg => simp [c1, c2, c3, c4] at h
  by_cases c5 : snippetCountOk input.snippetCount = true
  case neg => simp [c1, c2, c3, c4, c5] at h
  by_cases c6 : resolvedAtOk input.resolvedAt = true
  case neg => simp [c1, c2, c3, c4, c5, c6] at h
  refine ⟨by simpa using c1, ?_, by simpa using c3, c4, c5, c6⟩
  intro he
  rw [he] at c2
  simp at c2

theorem upsertC7_error_state {nowIso : String} {maxE : Nat}
    {input : Context7Input} {s : RepoState Context7Entry} {e : ParseError}
    (hp : parseContext7 nowIso input = .error e) :
    upsertC7 nowIso maxE input s = (.error e, s) := by
  unfold upsertC7
  rw [hp]

/-- C6: an upsert input that fails schema validation — an empty name
after trimming, an empty names list, an empty required `libraryId`, a
`trustScore` outside [0, 10], a negative `snippetCount`, or a
malformed `resolvedAt` timestamp — makes `upsert` reject with a
validation error, and the repository state is exactly what it was
before the call (`parseInput` runs before any mutation). -/
theorem invalid_upsert_rejected_state_unchanged
    (nowIso : String) (maxE : Nat) (input : Context7Input)
    (s : RepoState Context7Entry)
    (hbad : (input.names.map trimString).any (fun n => n.data.isEmpty) = true
      ∨ input.names = []
      ∨ (trimString input.libraryId).data.isEmpty = true
      ∨ trustScoreOk input.trustScore = false
      ∨ snippetCountOk input.snippetCount = false
      ∨ resolvedAtOk input.resolvedAt = false) :
    (∃ e, (upsertC7 nowIso maxE input s).1 = .error e) ∧
    (upsertC7 nowIso maxE input s).2 = s := by
  rcases hp : parseContext7 nowIso input with e | parsed
  · rw [upsertC7_error_state hp]
    exact ⟨⟨e, rfl⟩, rfl⟩
  · exfalso
    obtain ⟨k1, k2, k3, k4, k5, k6⟩ := parseContext7_ok_checks hp
    rcases hbad with h | h | h | h | h | h
    · rw [k1] at h; cases h
    · exact k2 h
    · rw [k3] at h; cases h
    · rw [k4] at h; cases h
    · rw [k5] at h; cases h
    · rw [k6] at h; cases h

/-- A concrete input whose `trustScore` is out of range. -/
def badTrustInput : Context7Input :=
  { names := ["react"]
    libraryId := "/facebook/react"
    sourceType := SourceType.official
    trustScore := some 11
    snippetCount := none
    resolvedAt := none }

/-- A concrete stored entry. -/
def vueRepoEntry : Context7Entry :=
  { names := ["vue"]
    libraryId := "/vuejs/vue"
    sourceType := SourceType.official
    trustScore := none
    snippetCount := none
    resolvedAt := "2025-01-01T00:00:00.000Z" }

/-- A concrete one-entry repository. -/
def vueRepoState : RepoState Context7Entry :=
  ⟨[("vue", vueRepoEntry)], ["vue"]⟩

/-- Witness for C6: a `trustScore` of 11 is rejected and a concrete
one-entry repository is left untouched. -/
theorem invalid_upsert_rejected_state_unchanged_witness :
    (∃ e, (upsertC7 "2025-01-01T00:00:00.000Z" 50 badTrustInput
      vueRepoState).1 = .error e) ∧
    (upsertC7 "2025-01-01T00:00:00.000Z" 50 badTrustInput
      vueRepoState).2 = vueRepoState :=
  invalid_upsert_rejected_state_unchanged _ _ _ _
    (Or.inr (Or.inr (Or.inr (Or.inl (by decide)))))

/-! ### Identity reconciliation -/

theorem enforceCapacityRepo_of_le {maxE : Nat} {s : RepoState α}
    (h : s.order.length ≤ maxE) : enforceCapacityRepo maxE s = s := by
  obtain ⟨e, o⟩ := s
  unfold enforceCapacityRepo
  simp only at h
  simp [Nat.sub_eq_zero_of_le h]

/-- C2 (amended): in the repository variant, when the new record's
canonical name is not yet a stored key and `resolveExistingKey` finds
a matching entry (first in insertion order, by identifier or shared
name) under another key, `upsert` drops that old key and stores the
record under the new canonical name: `size()` does not increase, the
old key is gone, the new key holds the parsed record. -/
theorem identifier_rekey_updates_in_place
    (nowIso : String) (input : Context7Input) (s : RepoState Context7Entry)
    (parsed : Context7Entry) (k : String)
    (hnd : NodupKeys s.entries)
    (hcap : s.order.length ≤ DEFAULT_CACHE_MAX_ENTRIES)
    (hp : parseContext7 nowIso input = .ok parsed)
    (hcanon : mapHas s.entries ((c7names parsed).headD "") = false)
    (hfound : resolveExistingKey c7same s ((c7names parsed).headD "") parsed
      = some k) :
    sizeRepo (upsertC7 nowIso DEFAULT_CACHE_MAX_ENTRIES input s).2
      = sizeRepo s ∧
    mapGet ((upsertC7 nowIso DEFAULT_CACHE_MAX_ENTRIES input s).2).entries k
      = none ∧
    mapGet ((upsertC7 nowIso DEFAULT_CACHE_MAX_ENTRIES input s).2).entries
      ((c7names parsed).headD "") = some parsed := by
  have hresolve := hfound
  unfold resolveExistingKey at hfound
  rw [if_neg (by simp only [hcanon]; exact Bool.false_ne_true)] at hfound
  have hkmem : k ∈ s.order := List.mem_of_find?_eq_some hfound
  have hfk := List.find?_some hfound
  have hex : ∃ existing, mapGet s.entries k = some existing := by
    rcases hm : mapGet s.entries k with _ | existing
    · rw [hm] at hfk
      simp at hfk
    · exact ⟨existing, rfl⟩
  obtain ⟨existing, hm⟩ := hex
  have hknec : k ≠ (c7names parsed).headD "" := by
    intro he
    rw [← he] at hcanon
    rw [mapHas_eq_isSome, hm] at hcanon
    cases hcanon
  have hhc : mapHas (mapDelete s.entries k) ((c7names parsed).headD "")
      = false := by
    rw [mapHas_eq_isSome, mapGet_delete_ne _ (Ne.symm hknec),
      ← mapHas_eq_isSome]
    exact hcanon
  have horder : ((s.order.erase k) ++ [(c7names parsed).headD ""]).length
      ≤ DEFAULT_CACHE_MAX_ENTRIES := by
    rw [List.length_append, List.length_erase_of_mem hkmem]
    simp only [List.length_singleton]
    have h1 : 0 < s.order.length := List.length_pos_of_mem hkmem
    omega
  have hstate : (upsertC7 nowIso DEFAULT_CACHE_MAX_ENTRIES input s).2 =
      ⟨mapSet (mapDelete s.entries k) ((c7names parsed).headD "") parsed,
        (s.order.erase k) ++ [(c7names parsed).headD ""]⟩ := by
    unfold upsertC7
    rw [hp]
    show (upsertParsed c7same c7names DEFAULT_CACHE_MAX_ENTRIES parsed s).2 = _
    unfold upsertParsed
    simp only [hresolve]
    rw [if_pos hknec]
    simp only [hhc, Bool.false_eq_true, if_false]
    show (enforceCapacityRepo DEFAULT_CACHE_MAX_ENTRIES
        ⟨mapSet (mapDelete s.entries k) ((c7names parsed).headD "") parsed,
          (s.order.erase k) ++ [(c7names parsed).headD ""]⟩) = _
    exact enforceCapacityRepo_of_le horder
  rw [hstate]
  refine ⟨?_, ?_, ?_⟩
  · show (mapSet (mapDelete s.entries k) ((c7names parsed).headD "")
      parsed).length = s.entries.length
    rw [length_mapSet_of_not_has _ (by simp only [hhc]; exact Bool.false_ne_true)]
    have := length_mapDelete_of_get hnd hm
    omega
  · show mapGet (mapSet (mapDelete s.entries k)
      ((c7names parsed).headD "") parsed) k = none
    rw [mapGet_set_ne _ _ hknec]
    exact mapGet_delete_self _ _
  · exact mapGet_set_self _ _ _

/-- A parse-free context7 input constructor for concrete scenarios. -/
def mkC7Input (ns : List String) (lid : String) : Context7Input :=
  { names := ns
    libraryId := lid
    sourceType := SourceType.official
    trustScore := none
    snippetCount := none
    resolvedAt := none }

/-- The stored entry of the re-keying witness. -/
def reactRepoEntry : Context7Entry :=
  { names := ["react", "reactjs"]
    libraryId := "/r"
    sourceType := SourceType.official
    trustScore := none
    snippetCount := none
    resolvedAt := "N" }

/-- A one-entry repository keyed by `react`. -/
def rekeyRepoState : RepoState Context7Entry :=
  ⟨[("react", reactRepoEntry)], ["react"]⟩

/-- The parsed form of `mkC7Input ["reactx"] "/r"` at `nowIso = "N"`. -/
def reactxParsed : Context7Entry :=
  { names := ["reactx"]
    libraryId := "/r"
    sourceType := SourceType.official
    trustScore := none
    snippetCount := none
    resolvedAt := "N" }

/-- Witness for C2 (amended): re-upserting the same `libraryId` under
a fresh canonical name re-keys the entry without growing the store. -/
theorem identifier_rekey_updates_in_place_witness :
    sizeRepo (upsertC7 "N" DEFAULT_CACHE_MAX_ENTRIES
        (mkC7Input ["reactx"] "/r") rekeyRepoState).2
      = sizeRepo rekeyRepoState ∧
    mapGet ((upsertC7 "N" DEFAULT_CACHE_MAX_ENTRIES
        (mkC7Input ["reactx"] "/r") rekeyRepoState).2).entries "react"
      = none ∧
    mapGet ((upsertC7 "N" DEFAULT_CACHE_MAX_ENTRIES
        (mkC7Input ["reactx"] "/r") rekeyRepoState).2).entries
      ((c7names reactxParsed).headD "") = some reactxParsed :=
  identifier_rekey_updates_in_place "N" (mkC7Input ["reactx"] "/r")
    rekeyRepoState reactxParsed "react"
    (by decide) (by decide) (by rfl) (by decide) (by decide)

end Repo

namespace Store

/-! ### `get` depends on the lookup term only through its normal form -/

theorem resolveKey_congr {t1 t2 : String} (s : StoreState)
    (h : normalizeKey t1 = normalizeKey t2) :
    resolveKey t1 s = resolveKey t2 s := by
  unfold resolveKey
  rw [h]

theorem get_congr {t1 t2 : String} (now : Nat) (s : StoreState)
    (h : normalizeKey t1 = normalizeKey t2) :
    get now t1 s = get now t2 s := by
  rw [get_eq, get_eq, resolveKey_congr _ h]

end Store

/-! ## Identifier uniqueness fails in both variants -/

/-- A context7 input that re-stores `/facebook/react` under the new
search term `reactjs`. -/
def reactjsSameIdInput : CacheEntryInput :=
  { searchTerm := "reactjs"
    aliases := none
    sourceType := .official
    resolvedAt := "2025-09-27T12:34:56.000Z"
    payload := .context7 "/facebook/react" none none }

/-- The store after upserting the same `libraryId` under the search
terms `react` and then `reactjs`. -/
def dupIdStore : Store.StoreState :=
  (Store.upsert 100 reactjsSameIdInput
    (Store.upsert 100 Store.reactInput Store.emptyStore).2).2

/-- The repository after upserting names `["a"]` with id `x`, names
`["b"]` with id `y`, then names `["b"]` with id `x` again. -/
def dupIdRepo : Repo.RepoState Repo.Context7Entry :=
  (Repo.upsertC7 "N" 50 (Repo.mkC7Input ["b"] "x")
    (Repo.upsertC7 "N" 50 (Repo.mkC7Input ["b"] "y")
      (Repo.upsertC7 "N" 50 (Repo.mkC7Input ["a"] "x")
        Repo.emptyRepo).2).2).2

/-- C2 (counterexample): identifier uniqueness fails in both
implementations. In `LibraryCacheStore`, `upsert` keys solely on the
normalized search term and never consults the payload, so storing
`/facebook/react` again under the new search term `reactjs` leaves two
entries with that `libraryId` and the entry count grows from 1 to 2.
In `BaseCacheRepository`, when the new record's canonical name is
already a stored key, `resolveExistingKey` short-circuits on that key
and never runs the identifier scan, so keys `a` and `b` end up holding
records with the same `libraryId` `x` and `size()` stays 2. -/
theorem identifier_uniqueness_counterexample :
    ((Store.upsert 100 Store.reactInput Store.emptyStore).2).entries.length
      = 1 ∧
    dupIdStore.entries.length = 2 ∧
    (mapGet dupIdStore.entries "react").map (fun e => e.payload)
      = some (Payload.context7 "/facebook/react" (some 9) (some 100)) ∧
    (mapGet dupIdStore.entries "reactjs").map (fun e => e.payload)
      = some (Payload.context7 "/facebook/react" none none) ∧
    Repo.sizeRepo dupIdRepo = 2 ∧
    (mapGet dupIdRepo.entries "a").map (fun e => e.libraryId) = some "x" ∧
    (mapGet dupIdRepo.entries "b").map (fun e => e.libraryId) = some "x" := by
  decide

/-! ## The upsert/get roundtrip and its two failure modes -/

/-- The store after `vue` is stored and then `react` is stored with
the alias `Vue`. -/
def aliasClashState : Store.StoreState :=
  (Store.upsert 100 Store.reactAliasVueInput
    (Store.upsert 100 Store.vueInput Store.emptyStore).2).2

/-- C1 (counterexample): the roundtrip fails in both implementations.
In `LibraryCacheStore` the alias `Vue` is registered on the `react`
entry (the alias index maps `vue` to `react`), yet `get "Vue"`
returns the `vue` entry, not the entry `get "react"` returns — a
direct canonical-key match shadows the alias, so alias lookup and
canonical lookup disagree. In `BaseCacheRepository` the probe is
lowercased but the stored names are kept raw, so an entry stored
under the name `React` is returned by no probe — not even the
verbatim `React`. -/
theorem roundtrip_alias_counterexample :
    mapGet aliasClashState.aliasIndex "vue" = some "react" ∧
    (Store.get 100 "Vue" aliasClashState).1
      = some (Store.mkEntry Store.vueInput 100) ∧
    (Store.get 100 "react" aliasClashState).1
      = some (Store.mkEntry Store.reactAliasVueInput 100) ∧
    (Store.get 100 "Vue" aliasClashState).1
      ≠ (Store.get 100 "react" aliasClashState).1 ∧
    Repo.sizeRepo (Repo.upsertC7 "N" 50 (Repo.mkC7Input ["React"] "/r")
      Repo.emptyRepo).2 = 1 ∧
    Repo.getByNameC7 (Repo.upsertC7 "N" 50 (Repo.mkC7Input ["React"] "/r")
      Repo.emptyRepo).2 "React" = none ∧
    Repo.getByNameC7 (Repo.upsertC7 "N" 50 (Repo.mkC7Input ["React"] "/r")
      Repo.emptyRepo).2 "react" = none := by
  decide

/-- C1 (amended): the upsert/get roundtrip, with the two provisos the
code forces. In `LibraryCacheStore`, `get` with any term normalizing
to the search term (case, whitespace) returns the freshly stored
record, whose non-bookkeeping fields are exactly the input; `get`
with any form of a registered alias agrees with it *provided* the
normalized alias is not the canonical key of another stored entry
(`resolveKey` prefers direct keys, so a colliding alias resolves to
the other entry). In `BaseCacheRepository`, `getByName` compares the
lowercased trimmed probe against the raw stored names, so a lookup on
a fresh store hits exactly when the normalized probe equals a stored
name verbatim. -/
theorem upsert_get_roundtrip
    (s : Store.StoreState) (now : Nat) (input : CacheEntryInput)
    (t a a2 nowIso : String) (rinput : Repo.Context7Input)
    (parsed : Repo.Context7Entry)
    (hnd : NodupKeys s.entries)
    (hcap : s.entries.length ≤ Store.CACHE_MAX_ENTRIES)
    (hts : ∀ p ∈ s.entries, p.2.lastAccessedAt ≤ now)
    (ht : normalizeKey t = normalizeKey input.searchTerm)
    (ha : a ∈ input.aliases.getD [])
    (ha2 : normalizeKey a2 = normalizeKey a)
    (hnoclash : mapHas ((Store.upsert now input s).2).entries (normalizeKey a)
        = true → normalizeKey a = normalizeKey input.searchTerm)
    (hp : Repo.parseContext7 nowIso rinput = .ok parsed) :
    ((Store.get now t (Store.upsert now input s).2).1
        = some (Store.mkEntry input now) ∧
      (Store.mkEntry input now).toCacheEntryInput = input) ∧
    (Store.get now a2 (Store.upsert now input s).2).1
      = (Store.get now t (Store.upsert now input s).2).1 ∧
    (∀ n, Repo.getByNameC7
        (Repo.upsertC7 nowIso Repo.DEFAULT_CACHE_MAX_ENTRIES rinput
          Repo.emptyRepo).2 n
      = if (Repo.c7names parsed).contains (normalizeKey n) = true
        then some parsed else none) := by
  have hund : NodupKeys ((Store.upsert now input s).2).entries :=
    Store.upsert_nodup hnd
  have hukey : mapGet ((Store.upsert now input s).2).entries
      (normalizeKey input.searchTerm) = some (Store.mkEntry input now) :=
    Store.upsert_get_key hnd hcap hts
  have hlive : Store.expiredAt now (Store.mkEntry input now) = false := by
    simp [Store.expiredAt, Store.mkEntry]
  have hget1 : mapGet ((Store.upsert now input s).2).entries (normalizeKey t)
      = some (Store.mkEntry input now) := by
    rw [ht]
    exact hukey
  have hGt := @Store.get_hit _ now _ _ hund hget1 hlive
  refine ⟨⟨by rw [hGt]; rfl, rfl⟩, ?_, ?_⟩
  · cases hmem : mapHas (Store.pruneExpired now
        ((Store.upsert now input s).2)).entries (normalizeKey a2) with
    | true =>
        have hmem2 : mapHas ((Store.upsert now input s).2).entries
            (normalizeKey a2) = true :=
          mapHas_of_sublist (Store.pruneExpired_entries_sublist now _) hmem
        have hne : normalizeKey a = normalizeKey input.searchTerm :=
          hnoclash (by rw [← ha2]; exact hmem2)
        have heqn : normalizeKey a2 = normalizeKey t := by
          rw [ha2, hne, ht]
        rw [Store.get_congr now _ heqn]
    | false =>
        have halia : mapGet ((Store.upsert now input s).2).aliasIndex
            (normalizeKey a) = some (normalizeKey input.searchTerm) :=
          Store.upsert_alias_key hnd hcap hts ha
        have hsafe : ∀ p ∈ ((Store.upsert now input s).2).entries,
            Store.expiredAt now p.2 = true →
              p.1 ≠ normalizeKey input.searchTerm := by
          intro p hpmem hexp he
          have h3 := mapGet_eq_some_of_mem hund hpmem
          rw [he, hukey] at h3
          injection h3 with hv
          rw [← hv] at hexp
          rw [hlive] at hexp
          cases hexp
        have halias2 : mapGet (Store.pruneExpired now
            ((Store.upsert now input s).2)).aliasIndex (normalizeKey a2)
            = some (normalizeKey input.searchTerm) := by
          rw [ha2]
          exact Store.pruneExpired_alias_preserved hsafe halia
        have hget2 : mapGet (Store.pruneExpired now
            ((Store.upsert now input s).2)).entries
            (normalizeKey input.searchTerm)
            = some (Store.mkEntry input now) := by
          rw [Store.pruneExpired_get now hund, hukey]
          simp [hlive]
        have hGa := @Store.get_hit_alias _ now _ _ _ hmem halias2 hget2
        rw [hGa, hGt]
  · have hstate : (Repo.upsertC7 nowIso Repo.DEFAULT_CACHE_MAX_ENTRIES rinput
        Repo.emptyRepo).2 =
        ⟨[(((Repo.c7names parsed).headD ""), parsed)],
          [((Repo.c7names parsed).headD "")]⟩ := by
      unfold Repo.upsertC7
      rw [hp]
      rfl
    intro n
    rw [hstate]
    show (Repo.getAll (⟨[(((Repo.c7names parsed).headD ""), parsed)],
        [((Repo.c7names parsed).headD "")]⟩ :
          Repo.RepoState Repo.Context7Entry)).find?
      (fun e => (Repo.c7names e).contains (normalizeKey n)) = _
    have hga : Repo.getAll (⟨[(((Repo.c7names parsed).headD ""), parsed)],
        [((Repo.c7names parsed).headD "")]⟩ :
          Repo.RepoState Repo.Context7Entry) = [parsed] := by
      unfold Repo.getAll
      simp [mapGet]
    rw [hga]
    cases hc : (Repo.c7names parsed).contains (normalizeKey n) with
    | true =>
        rw [List.find?_cons_of_pos _ (by exact hc), if_pos rfl]
    | false =>
        rw [List.find?_cons_of_neg _ (by simpa using hc), List.find?_nil,
          if_neg (by exact Bool.false_ne_true)]

/-- The parsed form of `Repo.mkC7Input ["Reactx"] "/r"` at
`nowIso = "N"`: the stored name keeps its raw casing. -/
def reactCasedParsed : Repo.Context7Entry :=
  { names := ["Reactx"]
    libraryId := "/r"
    sourceType := SourceType.official
    trustScore := none
    snippetCount := none
    resolvedAt := "N" }

/-- Witness for C1 (amended): storing `react` (alias `ReactJS`) in an
empty store and reading it back as `  REACT ` and ` reactjs `, and a
repository whose mixed-case stored name `Reactx` is reachable by no
probe, the verbatim one included. -/
theorem upsert_get_roundtrip_witness :
    (Store.get 100 "  REACT " (Store.upsert 100 Store.reactInput
        Store.emptyStore).2).1 = some (Store.mkEntry Store.reactInput 100) ∧
    (Store.get 100 " reactjs " (Store.upsert 100 Store.reactInput
        Store.emptyStore).2).1
      = (Store.get 100 "  REACT " (Store.upsert 100 Store.reactInput
        Store.emptyStore).2).1 ∧
    Repo.getByNameC7 (Repo.upsertC7 "N" Repo.DEFAULT_CACHE_MAX_ENTRIES
        (Repo.mkC7Input ["Reactx"] "/r") Repo.emptyRepo).2 "Reactx"
      = none := by
  have h := upsert_get_roundtrip Store.emptyStore 100 Store.reactInput
    "  REACT " "ReactJS" " reactjs " "N" (Repo.mkC7Input ["Reactx"] "/r")
    reactCasedParsed (by decide) (by decide) (by decide) (by decide)
    (by decide) (by decide) (by decide) (by rfl)
  refine ⟨h.1.1, h.2.1, ?_⟩
  have h3 := h.2.2 "Reactx"
  rw [h3]
  decide

namespace Heap

/-! ## A heap model of the copy discipline

The pure embedding above treats every record as a value, which is
exact for scalar fields but cannot see reference sharing.  This model
makes array references explicit: a JS string array lives in a heap
slot, a record holds the slot's index, and the spread copies of
library-cache-store.ts (`{ ...entry }`, which copies the `aliases`
*reference*) and the `cloneEntry` of library-cache-repository.ts
(which allocates `[...entry.names]` afresh) become visibly different
operations. -/

/-- The heap of live JS string arrays; a reference is an index. -/
abbrev ArrayHeap := List (List String)

/-- Dereference an array. -/
def readArr (h : ArrayHeap) (r : Nat) : List String :=
  h.getD r []

/-- Mutate the array a reference names in place, e.g. a caller's
`record.aliases.push(x)`. -/
def writeArr (h : ArrayHeap) (r : Nat) (v : List String) : ArrayHeap :=
  h.set r v

/-- A fresh array literal such as `[...entry.names]`: a new slot. -/
def allocArr (h : ArrayHeap) (v : List String) : ArrayHeap × Nat :=
  (h ++ [v], h.length)

/-- `CacheEntryInput` with the `aliases` array held by reference
(`none` models an absent `aliases` field). -/
structure HCacheEntryInput where
  searchTerm : String
  aliasesRef : Option Nat
  sourceType : SourceType
  resolvedAt : String
  payload : Payload
deriving DecidableEq, Repr

/-- `CacheEntry` with the `aliases` array held by reference. -/
structure HCacheEntry where
  searchTerm : String
  aliasesRef : Option Nat
  sourceType : SourceType
  resolvedAt : String
  payload : Payload
  lastAccessedAt : Nat
  updatedAt : Nat
deriving DecidableEq, Repr

/-- `entry.aliases ?? []`, reading through the reference. -/
def aliasesOf (h : ArrayHeap) (e : HCacheEntry) : List String :=
  match e.aliasesRef with
  | none => []
  | some r => readArr h r

/-- `LibraryCacheStore`'s fields together with the array heap. -/
structure HStoreState where
  entries : List (String × HCacheEntry)
  aliasIndex : List (String × String)
  heap : ArrayHeap
deriving DecidableEq, Repr

/-- The `{ ...entry, lastAccessedAt: now, updatedAt: now }` of
`upsert`: a shallow spread — every scalar field is copied, the
`aliases` *reference* is copied, the array is not. -/
def mkEntryH (input : HCacheEntryInput) (now : Nat) : HCacheEntry :=
  { searchTerm := input.searchTerm
    aliasesRef := input.aliasesRef
    sourceType := input.sourceType
    resolvedAt := input.resolvedAt
    payload := input.payload
    lastAccessedAt := now
    updatedAt := now }

/-- `registerAliasIndex`, reading the aliases through the heap. -/
def registerAliasIndexH (hp : ArrayHeap) (e : HCacheEntry) (key : String)
    (idx : List (String × String)) : List (String × String) :=
  (aliasesOf hp e).foldl (fun acc a => mapSet acc (normalizeKey a) key) idx

/-- `removeAliasIndex`, reading the aliases through the heap. -/
def removeAliasIndexH (hp : ArrayHeap) (e : HCacheEntry) (key : String)
    (idx : List (String × String)) : List (String × String) :=
  (aliasesOf hp e).foldl (Store.removeAliasStep key) idx

/-- `removeEntry` on the heap-aware store. -/
def removeEntryH (key : String) (s : HStoreState) : HStoreState :=
  match mapGet s.entries key with
  | none => s
  | some e =>
      { s with entries := mapDelete s.entries key
               aliasIndex := removeAliasIndexH s.heap e key s.aliasIndex }

/-- The TTL test of `pruneExpired`. -/
def expiredAtH (now : Nat) (e : HCacheEntry) : Bool :=
  Store.CACHE_TTL_MS < now - e.updatedAt

/-- The loop of `pruneExpired` on the heap-aware store. -/
def pruneLoopH (now : Nat) :
    List (String × HCacheEntry) → HStoreState → HStoreState
  | [], s => s
  | (k, e) :: rest, s =>
      pruneLoopH now rest (if expiredAtH now e then removeEntryH k s else s)

/-- `pruneExpired` on the heap-aware store. -/
def pruneExpiredH (now : Nat) (s : HStoreState) : HStoreState :=
  pruneLoopH now s.entries s

/-- The stable-sort order of `enforceCapacity`. -/
def lastLexH (a b : Nat × (String × HCacheEntry)) : Prop :=
  a.2.2.lastAccessedAt < b.2.2.lastAccessedAt ∨
    (a.2.2.lastAccessedAt = b.2.2.lastAccessedAt ∧ a.1 ≤ b.1)

instance : DecidableRel lastLexH := fun a b => by
  unfold lastLexH; exact inferInstance

/-- The stable ascending sort by `lastAccessedAt`. -/
def sortByLastAccessedH (l : List (String × HCacheEntry)) :
    List (String × HCacheEntry) :=
  ((l.enum).insertionSort lastLexH).map (fun p => p.2)

/-- The `while` loop of `enforceCapacity`. -/
def evictLoopH : List (String × HCacheEntry) → HStoreState → HStoreState
  | [], s => s
  | (k, _) :: rest, s =>
      if s.entries.length ≤ Store.CACHE_MAX_ENTRIES then s
      else evictLoopH rest (removeEntryH k s)

/-- `enforceCapacity` on the heap-aware store. -/
def enforceCapacityH (s : HStoreState) : HStoreState :=
  if s.entries.length ≤ Store.CACHE_MAX_ENTRIES then s
  else evictLoopH (sortByLastAccessedH s.entries) s

/-- `upsert` up to its final `enforceCapacity()` call. -/
def upsertPlacedH (now : Nat) (input : HCacheEntryInput) (s : HStoreState) :
    HStoreState :=
  let s1 := pruneExpiredH now s
  let key := normalizeKey input.searchTerm
  let next := mkEntryH input now
  let s2 :=
    match mapGet s1.entries key with
    | some existing =>
        { s1 with
          aliasIndex := (removeAliasIndexH s1.heap existing key s1.aliasIndex) }
    | none => s1
  { s2 with entries := mapSet s2.entries key next
            aliasIndex := registerAliasIndexH s2.heap next key s2.aliasIndex }

/-- `upsert` on the heap-aware store.  The returned record is
`nextEntry` itself — the very object `entries.set` stored, aliases
reference included. -/
def hUpsert (now : Nat) (input : HCacheEntryInput) (s : HStoreState) :
    HCacheEntry × HStoreState :=
  (mkEntryH input now, enforceCapacityH (upsertPlacedH now input s))

/-- `resolveKey` on the heap-aware store. -/
def resolveKeyH (t : String) (s : HStoreState) : Option String :=
  let normalized := normalizeKey t
  if mapHas s.entries normalized then some normalized
  else mapGet s.aliasIndex normalized

/-- `get` on the heap-aware store: the returned `{ ...entry }` copies
the scalar fields but shares the `aliases` reference with the stored
record. -/
def hGet (now : Nat) (t : String) (s : HStoreState) :
    Option HCacheEntry × HStoreState :=
  let s1 := pruneExpiredH now s
  match resolveKeyH t s1 with
  | none => (none, s1)
  | some key =>
      match mapGet s1.entries key with
      | none => (none, s1)
      | some e =>
          let refreshed := { e with lastAccessedAt := now }
          (some refreshed,
            { s1 with entries := mapSet s1.entries key refreshed })

/-- A caller mutating a returned record's aliases array in place:
`record.aliases?.push(a)`. -/
def pushAlias (s : HStoreState) (rec : HCacheEntry) (a : String) :
    HStoreState :=
  match rec.aliasesRef with
  | none => s
  | some r => { s with heap := writeArr s.heap r (readArr s.heap r ++ [a]) }

/-- What a caller sees in the aliases of the record `get` returns. -/
def hObserved (s : HStoreState) : List String :=
  match (hGet 100 "react" s).1 with
  | some r => aliasesOf (hGet 100 "react" s).2.heap r
  | none => []

/-- The caller's input object: its `aliases` array is heap slot 0. -/
def hDemoInput : HCacheEntryInput :=
  { searchTerm := "react"
    aliasesRef := some 0
    sourceType := SourceType.official
    resolvedAt := "T"
    payload := Payload.context7 "/facebook/react" none none }

/-- The store after `upsert(hDemoInput)` at time 100. -/
def hs1 : HStoreState :=
  (hUpsert 100 hDemoInput ⟨[], [], [["ReactJS"]]⟩).2

/-- The store after a first `get("react")`. -/
def hs2 : HStoreState :=
  (hGet 100 "react" hs1).2

/-- The store after the caller pushes `Evil` onto the aliases array of
the record that first `get` returned. -/
def hs3 : HStoreState :=
  match (hGet 100 "react" hs1).1 with
  | some rec => pushAlias hs2 rec "Evil"
  | none => hs2

/-- C8 (counterexample): the records `LibraryCacheStore.get` returns
are shallow spread copies, so their `aliases` array is the stored
entry's array.  The record returned by `get` holds heap slot 0 — the
same slot the stored entry holds — and after the caller pushes `Evil`
through the returned record, a subsequent `get` observes
`["ReactJS", "Evil"]` where it observed `["ReactJS"]` before; external
mutation has corrupted the store.  (`upsert` is worse still: it
returns the very object it stored.) -/
theorem defensive_copy_counterexample :
    ((hGet 100 "react" hs1).1).map (fun r => r.aliasesRef)
      = some (some 0) ∧
    (mapGet hs2.entries "react").map (fun e => e.aliasesRef)
      = some (some 0) ∧
    hObserved hs2 = ["ReactJS"] ∧
    hObserved hs3 = ["ReactJS", "Evil"] := by
  decide

/-- `Context7CacheEntry` with the `names` array held by reference. -/
structure HRepoEntry where
  namesRef : Nat
  libraryId : String
  sourceType : SourceType
  trustScore : Option ℚ
  snippetCount : Option ℤ
  resolvedAt : String
deriving DecidableEq, Repr

/-- `cloneEntry` of library-cache-repository.ts:
`{ ...entry, names: [...entry.names] }` — the spread copies the scalar
fields and the fresh array literal allocates a new slot for `names`. -/
def cloneEntryH (h : ArrayHeap) (e : HRepoEntry) : ArrayHeap × HRepoEntry :=
  let alloc := allocArr h (readArr h e.namesRef)
  (alloc.1, { e with namesRef := alloc.2 })

/-- C8 (amended): only the repository variant keeps the promise, and
does so through `cloneEntry`.  For a live reference (`namesRef` within
the heap), the clone's `names` array sits in a slot distinct from the
stored entry's, its contents at clone time equal the stored contents,
and any in-place mutation of the clone's array leaves the stored
entry's array exactly as it was — so mutating what `getAll`/`getByName`
hand out never changes the repository.  `LibraryCacheStore` gives no
such guarantee: its returned records share their `aliases` array with
the store. -/
theorem clone_entry_defensive (h : ArrayHeap) (e : HRepoEntry)
    (hwf : e.namesRef < h.length) :
    (cloneEntryH h e).2.namesRef ≠ e.namesRef ∧
    readArr (cloneEntryH h e).1 (cloneEntryH h e).2.namesRef
      = readArr h e.namesRef ∧
    ∀ v, readArr (writeArr (cloneEntryH h e).1 (cloneEntryH h e).2.namesRef v)
      e.namesRef = readArr h e.namesRef := by
  refine ⟨?_, ?_, ?_⟩
  · show h.length ≠ e.namesRef
    exact Nat.ne_of_gt hwf
  · show readArr (h ++ [readArr h e.namesRef]) h.length = readArr h e.namesRef
    simp [readArr, List.getD_eq_getElem?_getD, List.getElem?_concat_length]
  · intro v
    show readArr ((h ++ [readArr h e.namesRef]).set h.length v) e.namesRef
      = readArr h e.namesRef
    simp [readArr, List.getD_eq_getElem?_getD,
      List.getElem?_set_ne (Nat.ne_of_gt hwf),
      List.getElem?_append_left hwf]

/-- A concrete stored repository entry whose `names` array is heap
slot 0. -/
def hDemoRepoEntry : HRepoEntry :=
  { namesRef := 0
    libraryId := "/r"
    sourceType := SourceType.official
    trustScore := none
    snippetCount := none
    resolvedAt := "T" }

/-- Witness for C8 (amended): on the one-array heap `[["a"]]`, the
clone of the slot-0 entry lives in slot 1, reads back `["a"]`, and
overwriting the clone's array with `["mut"]` leaves slot 0 at
`["a"]`. -/
theorem clone_entry_defensive_witness :
    (cloneEntryH [["a"]] hDemoRepoEntry).2.namesRef ≠ hDemoRepoEntry.namesRef ∧
    readArr (cloneEntryH [["a"]] hDemoRepoEntry).1
      (cloneEntryH [["a"]] hDemoRepoEntry).2.namesRef
      = readArr [["a"]] hDemoRepoEntry.namesRef ∧
    readArr (writeArr (cloneEntryH [["a"]] hDemoRepoEntry).1
      (cloneEntryH [["a"]] hDemoRepoEntry).2.namesRef ["mut"])
      hDemoRepoEntry.namesRef = readArr [["a"]] hDemoRepoEntry.namesRef := by
  have h := clone_entry_defensive [["a"]] hDemoRepoEntry (by decide)
  exact ⟨h.1, h.2.1, h.2.2 ["mut"]⟩

end Heap

end LibdocsCache
